import Mathlib

/-!
# Verification of the export-structure-generator core

A shallow embedding of the core pipeline of the `export-structure-generator`
repository, together with theorems settling the frozen claims about it.

The embedding covers:

* the JSON-ish value model used for persisted snapshots and serialized
  Zod schemas (`JVal`),
* the `deep-diff` library's structural diff as used by
  `ChangeDetector.compareZodSchemas` (`ddiff`),
* `ChangeDetector` (`compareFileStructure`, `compareSchemas`,
  `compareZodSchemas`, `detectChanges`, `calculateSeverity`)
  from `src/core/changeDetection.ts`,
* `SchemaInferenceEngine` (`inferFromValue`, `inferFromArray`,
  `getUniqueSchemas`, `getSamples`) from `src/analyzers/schemaInference.ts`,
* `VersionManager` (`createVersion`, `getLatestVersion`,
  `getVersionHistory`, manifest reading) from `src/core/versionManager.ts`,
* the version-bump slice of `ExportValidator.validate` from
  `src/core/validator.ts`.

JavaScript numbers are modelled as `Int` (the values relevant to the claims
are integers: file sizes, counts).  JS objects have unique keys; the
embedding uses association lists, with property access modelled by the
last-occurrence lookup that `JSON.parse` duplicate-key semantics induce.
-/

namespace ESG

/-- JSON-ish runtime value: the shape of persisted snapshot data and of
serialized Zod schema objects (functions are dropped by `JSON.stringify`,
so a serialized schema is a plain object tree). -/
inductive JVal where
  | jnull : JVal
  | jbool (b : Bool) : JVal
  | jnum (n : Int) : JVal
  | jstr (s : String) : JVal
  | jarr (xs : List JVal) : JVal
  | jobj (fields : List (String × JVal)) : JVal

mutual

/-- Decidable equality for `JVal` (the automatic derivation does not handle
the nested inductive). -/
def JVal.decEq : (a b : JVal) → Decidable (a = b)
  | .jnull, .jnull => .isTrue rfl
  | .jbool a, .jbool b =>
      if h : a = b then .isTrue (by rw [h]) else .isFalse (by simp [h])
  | .jnum a, .jnum b =>
      if h : a = b then .isTrue (by rw [h]) else .isFalse (by simp [h])
  | .jstr a, .jstr b =>
      if h : a = b then .isTrue (by rw [h]) else .isFalse (by simp [h])
  | .jarr xs, .jarr ys =>
      match JVal.decEqList xs ys with
      | .isTrue h => .isTrue (by rw [h])
      | .isFalse h => .isFalse (by simp [h])
  | .jobj fs, .jobj gs =>
      match JVal.decEqFields fs gs with
      | .isTrue h => .isTrue (by rw [h])
      | .isFalse h => .isFalse (by simp [h])
  | .jnull, .jbool _ => .isFalse nofun
  | .jnull, .jnum _ => .isFalse nofun
  | .jnull, .jstr _ => .isFalse nofun
  | .jnull, .jarr _ => .isFalse nofun
  | .jnull, .jobj _ => .isFalse nofun
  | .jbool _, .jnull => .isFalse nofun
  | .jbool _, .jnum _ => .isFalse nofun
  | .jbool _, .jstr _ => .isFalse nofun
  | .jbool _, .jarr _ => .isFalse nofun
  | .jbool _, .jobj _ => .isFalse nofun
  | .jnum _, .jnull => .isFalse nofun
  | .jnum _, .jbool _ => .isFalse nofun
  | .jnum _, .jstr _ => .isFalse nofun
  | .jnum _, .jarr _ => .isFalse nofun
  | .jnum _, .jobj _ => .isFalse nofun
  | .jstr _, .jnull => .isFalse nofun
  | .jstr _, .jbool _ => .isFalse nofun
  | .jstr _, .jnum _ => .isFalse nofun
  | .jstr _, .jarr _ => .isFalse nofun
  | .jstr _, .jobj _ => .isFalse nofun
  | .jarr _, .jnull => .isFalse nofun
  | .jarr _, .jbool _ => .isFalse nofun
  | .jarr _, .jnum _ => .isFalse nofun
  | .jarr _, .jstr _ => .isFalse nofun
  | .jarr _, .jobj _ => .isFalse nofun
  | .jobj _, .jnull => .isFalse nofun
  | .jobj _, .jbool _ => .isFalse nofun
  | .jobj _, .jnum _ => .isFalse nofun
  | .jobj _, .jstr _ => .isFalse nofun
  | .jobj _, .jarr _ => .isFalse nofun

def JVal.decEqList : (xs ys : List JVal) → Decidable (xs = ys)
  | [], [] => .isTrue rfl
  | x :: xs, y :: ys =>
      match JVal.decEq x y, JVal.decEqList xs ys with
      | .isTrue h1, .isTrue h2 => .isTrue (by rw [h1, h2])
      | .isFalse h1, _ => .isFalse (by simp [h1])
      | _, .isFalse h2 => .isFalse (by simp [h2])
  | [], _ :: _ => .isFalse nofun
  | _ :: _, [] => .isFalse nofun

def JVal.decEqFields : (xs ys : List (String × JVal)) → Decidable (xs = ys)
  | [], [] => .isTrue rfl
  | (k, v) :: xs, (k', v') :: ys =>
      match String.decEq k k', JVal.decEq v v', JVal.decEqFields xs ys with
      | .isTrue h0, .isTrue h1, .isTrue h2 => .isTrue (by rw [h0, h1, h2])
      | .isFalse h0, _, _ => .isFalse (by simp [h0])
      | _, .isFalse h1, _ => .isFalse (by simp [h1])
      | _, _, .isFalse h2 => .isFalse (by simp [h2])
  | [], _ :: _ => .isFalse nofun
  | _ :: _, [] => .isFalse nofun

end

instance : DecidableEq JVal := JVal.decEq

namespace JVal

/-- JS truthiness restricted to JSON values: `null`, `false`, `0` and `""`
are falsy, everything else is truthy. -/
def truthy : JVal → Bool
  | jnull => false
  | jbool b => b
  | jnum n => n ≠ 0
  | jstr s => s ≠ ""
  | jarr _ => true
  | jobj _ => true

/-- `realTypeOf` from the `deep-diff` library, restricted to JSON values. -/
def rtype : JVal → String
  | jnull => "null"
  | jbool _ => "boolean"
  | jnum _ => "number"
  | jstr _ => "string"
  | jarr _ => "array"
  | jobj _ => "object"

end JVal

/-- Property read `obj[k]` on a JS object: last occurrence wins, matching
`JSON.parse` duplicate-key semantics (JS objects themselves never hold
duplicate keys). -/
def jGetOpt (fs : List (String × JVal)) (k : String) : Option JVal :=
  match fs with
  | [] => none
  | p :: rest =>
      match jGetOpt rest k with
      | some v => some v
      | none => if p.1 = k then some p.2 else none

/-- Property access `item?.[key]` on an arbitrary value: objects look up the
key; arrays expose `length` and canonical numeric indices; strings expose
`length` and characters; primitives and `null` yield `undefined` (`none`). -/
def propGet : JVal → String → Option JVal
  | JVal.jobj fs, k => jGetOpt fs k
  | JVal.jarr xs, k =>
      if k = "length" then some (JVal.jnum xs.length)
      else match k.toNat? with
        | some i => if toString i = k then xs.get? i else none
        | none => none
  | JVal.jstr s, k =>
      if k = "length" then some (JVal.jnum s.length)
      else match k.toNat? with
        | some i =>
            if toString i = k then
              (s.toList.get? i).map (fun c => JVal.jstr (String.mk [c]))
            else none
        | none => none
  | _, _ => none

/-- `Object.keys`: field names of an object, index strings of an array,
empty for everything else. -/
def keysOf : JVal → List String
  | JVal.jobj fs => fs.map Prod.fst
  | JVal.jarr xs => (List.range xs.length).map toString
  | _ => []

/-- Insertion-ordered deduplication, as performed by a JS `Set` built from a
key list (first occurrence wins, order preserved). -/
def jsDedup (l : List String) : List String :=
  l.foldl (fun acc k => if acc.contains k then acc else acc ++ [k]) []

/-- Kinds of `deep-diff` change records. -/
inductive DKind where
  | N | D | E | A
deriving DecidableEq, Repr

/-- A `deep-diff` change record, flattened: `lhs`/`rhs` are the edited
values (absent for array records), `index`/`itemKind`/`itemVal` carry the
embedded array-item record for kind `A`. -/
structure DiffRec where
  kind : DKind
  path : List String
  lhs : Option JVal := none
  rhs : Option JVal := none
  index : Option Nat := none
  itemKind : Option DKind := none
  itemVal : Option JVal := none
deriving DecidableEq

/-- `new DiffEdit(path, lhs, rhs)` -/
def editRec (path : List String) (l r : JVal) : DiffRec :=
  { kind := .E, path := path, lhs := some l, rhs := some r }

/-- `new DiffDeleted(path, lhs)` -/
def delRec (path : List String) (l : JVal) : DiffRec :=
  { kind := .D, path := path, lhs := some l }

/-- `new DiffNew(path, rhs)` -/
def newRec (path : List String) (r : JVal) : DiffRec :=
  { kind := .N, path := path, rhs := some r }

/-- `new DiffArray(path, i, new DiffDeleted(undefined, item))` -/
def arrDel (path : List String) (i : Nat) (v : JVal) : DiffRec :=
  { kind := .A, path := path, index := some i, itemKind := some .D, itemVal := some v }

/-- `new DiffArray(path, i, new DiffNew(undefined, item))` -/
def arrNew (path : List String) (i : Nat) (v : JVal) : DiffRec :=
  { kind := .A, path := path, index := some i, itemKind := some .N, itemVal := some v }

mutual

/-- The `deep-diff` `diff(lhs, rhs)` walk restricted to JSON values (both
sides defined, no dates/regexps/functions, no circular structures): a
`realTypeOf` mismatch is an edit; arrays compare element-wise with extra
elements reported as `A` records; objects walk the lhs keys in order
(`ddiffObjL`), then report rhs-only keys as new; scalars compare by
value. -/
def ddiff (path : List String) (l r : JVal) : List DiffRec :=
  if JVal.rtype l ≠ JVal.rtype r then [editRec path l r]
  else
    match l, r with
    | .jarr ls, .jarr rs => ddiffArr path 0 ls rs
    | .jobj lf, .jobj rf =>
        ddiffObjL path lf rf
        ++ ((rf.filter (fun q => ¬ (lf.map Prod.fst).contains q.1)).map
              (fun q => newRec (path ++ [q.1]) q.2))
    | l', r' => if l' ≠ r' then [editRec path l' r'] else []

/-- Array walk of `deep-diff`: common indices recurse, extra lhs elements
come out as `A`/deleted records, extra rhs elements as `A`/new records. -/
def ddiffArr (path : List String) (i : Nat) (ls rs : List JVal) : List DiffRec :=
  match ls, rs with
  | [], rest => (rest.enumFrom i).map (fun p => arrNew path p.1 p.2)
  | l :: ls', [] => arrDel path i l :: ddiffArr path (i + 1) ls' []
  | l :: ls', r :: rs' =>
      ddiff (path ++ [toString i]) l r ++ ddiffArr path (i + 1) ls' rs'

/-- Object walk of `deep-diff` over the lhs keys, in order: a key also
present in `rhs` recurses into both values, a key absent from `rhs` is a
deletion. -/
def ddiffObjL (path : List String) (lf rf : List (String × JVal)) :
    List DiffRec :=
  match lf with
  | [] => []
  | (k, v) :: rest =>
      (if (rf.map Prod.fst).contains k then
        match jGetOpt rf k with
        | some rv => ddiff (path ++ [k]) v rv
        | none => []
      else [delRec (path ++ [k]) v])
      ++ ddiffObjL path rest rf

end

/-! ## Change detection (`src/core/changeDetection.ts`) -/

/-- `ChangeStatus` from `src/types/index.ts`. -/
inductive ChangeStatus where
  | unchanged | added | removed | modified | renamed
deriving DecidableEq

/-- `ChangeSeverity` from `src/types/index.ts`. -/
inductive ChangeSeverity where
  | breaking | minor | patch
deriving DecidableEq

/-- `ChangeType` from `src/types/index.ts` (the change-kind union). -/
inductive ChangeType where
  | type_changed | nullable_added | nullable_removed
  | optional_added | optional_removed | constraint_changed
deriving DecidableEq

/-- `FieldChange` from `src/types/index.ts`.  `previousV`/`currentV` model
the `previous`/`current` schema-value fields; the unused `confidence` field
is omitted. -/
structure FieldChange where
  path : String
  status : ChangeStatus
  changes : List ChangeType := []
  previousV : Option JVal := none
  currentV : Option JVal := none
  previousType : Option String := none
  currentType : Option String := none
  severity : ChangeSeverity
  suggestedMigration : String := ""
deriving DecidableEq

/-- JS `String.prototype.includes` (for the non-empty patterns used here). -/
def jsIncludes (s pat : String) : Bool :=
  (s.splitOn pat).length > 1

/-- JS `String.prototype.replace` with a string pattern: replaces the first
occurrence only. -/
def replaceFirst (s pat sub : String) : String :=
  match s.splitOn pat with
  | [] => s
  | [x] => x
  | x :: y :: rest => x ++ sub ++ String.intercalate pat (y :: rest)

/-- `ChangeDetector.getTypeString`: `null`/`undefined` literals, arrays,
Zod-style `_def.typeName` detection on objects (with `Zod` stripped and the
result lowercased), plain `typeof` otherwise.  A truthy non-string
`typeName` (which never occurs in serialized schemas) is mapped to
`"object"`. -/
def getTypeString : Option JVal → String
  | none => "undefined"
  | some .jnull => "null"
  | some (.jnum _) => "number"
  | some (.jstr _) => "string"
  | some (.jbool _) => "boolean"
  | some (.jarr _) => "array"
  | some (.jobj fs) =>
      match jGetOpt fs "_def" with
      | some (.jobj ds) =>
          if (JVal.jobj ds).truthy then
            match jGetOpt ds "typeName" with
            | some (.jstr tn) =>
                if tn ≠ "" then (replaceFirst tn "Zod" "").toLower else "object"
            | _ => "object"
          else "object"
      | _ => "object"

/-- `ChangeDetector.generateMigrationSuggestion`. -/
def generateMigrationSuggestion (path : String) (prev cur : Option JVal) : String :=
  let prevType := getTypeString prev
  let currType := getTypeString cur
  if jsIncludes prevType "null" && !jsIncludes currType "null" then
    "Add null check before using " ++ path
  else if !jsIncludes prevType "null" && jsIncludes currType "null" then
    path ++ " can now be null, add appropriate handling"
  else if prevType ≠ currType then
    "Type changed from " ++ prevType ++ " to " ++ currType ++
      ", update type annotations and usage"
  else
    "Review usage of " ++ path ++ " for compatibility"

/-- `ChangeDetector.compareZodSchemas`: runs `deep-diff` on the two schema
values and maps each record kind to a `FieldChange` (note: the emitted
change kinds are only `optional_added`, `optional_removed` and
`type_changed`). -/
def compareZodSchemas (path : String) (current previous : JVal) : List FieldChange :=
  let schemaDiff := ddiff [] previous current
  schemaDiff.map (fun change =>
    let fieldPath := path ++ "." ++ String.intercalate "." change.path
    match change.kind with
    | .N =>
        { path := fieldPath, status := .modified, changes := [.optional_added],
          previousType := some (getTypeString change.lhs),
          currentType := some (getTypeString change.rhs),
          severity := .minor, suggestedMigration := "New optional field added" }
    | .D =>
        { path := fieldPath, status := .modified, changes := [.optional_removed],
          previousType := some (getTypeString change.lhs),
          currentType := some (getTypeString change.rhs),
          severity := .breaking,
          suggestedMigration := "Remove field access: " ++ fieldPath }
    | .E =>
        { path := fieldPath, status := .modified, changes := [.type_changed],
          previousType := some (getTypeString change.lhs),
          currentType := some (getTypeString change.rhs),
          severity := .breaking,
          suggestedMigration :=
            generateMigrationSuggestion fieldPath change.lhs change.rhs }
    | .A =>
        { path := fieldPath, status := .modified, changes := [.type_changed],
          previousType := some (getTypeString change.lhs),
          currentType := some (getTypeString change.rhs),
          severity := .breaking, suggestedMigration := "" })

/-- Truthiness of an optional value: JS `!x` negated (`undefined` is
falsy). -/
def optTruthy : Option JVal → Bool
  | none => false
  | some v => v.truthy

/-- `ChangeDetector.compareSchemas`: iterates the union of both key sets in
insertion order (a JS `Set`); a name whose previous entry is absent (or
falsy) is `added`/minor, one whose current entry is absent (or falsy) is
`removed`/breaking, otherwise the two schema values are structurally
compared. -/
def compareSchemas (current previous : List (String × JVal)) : List FieldChange :=
  let allPaths := jsDedup (current.map Prod.fst ++ previous.map Prod.fst)
  allPaths.flatMap (fun path =>
    let currentSchema := jGetOpt current path
    let previousSchema := jGetOpt previous path
    if !optTruthy previousSchema then
      [{ path := path, status := .added, currentV := currentSchema,
         severity := .minor, suggestedMigration := "New schema added" }]
    else if !optTruthy currentSchema then
      [{ path := path, status := .removed, previousV := previousSchema,
         severity := .breaking,
         suggestedMigration := "Remove usage of schema: " ++ path }]
    else
      match currentSchema, previousSchema with
      | some c, some p => compareZodSchemas path c p
      | _, _ => [])

/-- `FileNode.type` values. -/
inductive FKind where
  | file | directory
deriving DecidableEq

/-- Rendering of a `FileNode.type` value into message text. -/
def FKind.str : FKind → String
  | .file => "file"
  | .directory => "directory"

/-- `FileNode` from `src/types/index.ts` (name, kind, optional size,
children; an absent `children` field and `[]` are merged, matching the
`children || []` reads in the detector). -/
inductive FileNode where
  | mk (name : String) (ftype : FKind) (size : Option Int) (children : List FileNode)

def FileNode.name : FileNode → String
  | .mk n _ _ _ => n

def FileNode.ftype : FileNode → FKind
  | .mk _ t _ _ => t

def FileNode.size : FileNode → Option Int
  | .mk _ _ s _ => s

def FileNode.children : FileNode → List FileNode
  | .mk _ _ _ cs => cs

mutual

def FileNode.decEq : (a b : FileNode) → Decidable (a = b)
  | .mk n t s c, .mk n' t' s' c' =>
      if h0 : n = n' then
        if h1 : t = t' then
          if h2 : s = s' then
            match FileNode.decEqList c c' with
            | .isTrue h3 => .isTrue (by rw [h0, h1, h2, h3])
            | .isFalse h3 => .isFalse (by simp [h3])
          else .isFalse (by simp [h2])
        else .isFalse (by simp [h1])
      else .isFalse (by simp [h0])

def FileNode.decEqList : (xs ys : List FileNode) → Decidable (xs = ys)
  | [], [] => .isTrue rfl
  | x :: xs, y :: ys =>
      match FileNode.decEq x y, FileNode.decEqList xs ys with
      | .isTrue h1, .isTrue h2 => .isTrue (by rw [h1, h2])
      | .isFalse h1, _ => .isFalse (by simp [h1])
      | _, .isFalse h2 => .isFalse (by simp [h2])
  | [], _ :: _ => .isFalse nofun
  | _ :: _, [] => .isFalse nofun

end

instance : DecidableEq FileNode := FileNode.decEq

/-- One step of JS `Map` insertion: an existing key keeps its position and
gets the new value, a fresh key is appended. -/
def jsMapIns (m : List (String × FileNode)) (k : String) (v : FileNode) :
    List (String × FileNode) :=
  if m.any (fun p => p.1 = k) then m.map (fun p => if p.1 = k then (k, v) else p)
  else m ++ [(k, v)]

/-- `new Map(children.map(c => [c.name, c]))`: insertion-ordered map from
child name to child, later duplicates overwriting earlier values. -/
def jsMap (children : List FileNode) : List (String × FileNode) :=
  children.foldl (fun m c => jsMapIns m c.name c) []

/-- `Map.prototype.has`. -/
def hasKeyM (m : List (String × FileNode)) (k : String) : Bool :=
  m.any (fun p => p.1 = k)

/-- `Map.prototype.get` (keys are unique by construction). -/
def lookupM (m : List (String × FileNode)) (k : String) : Option FileNode :=
  m.lookup k

theorem mem_jsMapIns {m : List (String × FileNode)} {k : String} {v : FileNode}
    {p : String × FileNode} (h : p ∈ jsMapIns m k v) : p ∈ m ∨ p = (k, v) := by
  unfold jsMapIns at h
  split at h
  · obtain ⟨q, hq, hfq⟩ := List.mem_map.mp h
    by_cases hk : q.1 = k
    · simp only [if_pos hk] at hfq
      exact Or.inr hfq.symm
    · simp only [if_neg hk] at hfq
      exact Or.inl (hfq ▸ hq)
  · rcases List.mem_append.mp h with h1 | h1
    · exact Or.inl h1
    · exact Or.inr (by simpa using h1)

theorem mem_jsMap_aux (cs : List FileNode) (acc : List (String × FileNode))
    (p : String × FileNode)
    (h : p ∈ cs.foldl (fun m c => jsMapIns m c.name c) acc) :
    p ∈ acc ∨ p.2 ∈ cs := by
  induction cs generalizing acc with
  | nil => exact Or.inl h
  | cons c cs ih =>
      rcases ih (jsMapIns acc c.name c) h with h1 | h1
      · rcases mem_jsMapIns h1 with h2 | h2
        · exact Or.inl h2
        · right; simp [h2]
      · right; exact List.mem_cons_of_mem _ h1

theorem mem_jsMap {children : List FileNode} {p : String × FileNode}
    (h : p ∈ jsMap children) : p.2 ∈ children := by
  rcases mem_jsMap_aux children [] p h with h1 | h1
  · simp at h1
  · exact h1

/-- `ChangeDetector.compareFileStructure`: a kind mismatch is one
`modified`/breaking change and stops the walk; for files a size delta is
one `modified`/patch change; for directories, children only in `current`
are `added`/minor, children only in `previous` are `removed`/breaking, and
name-matched children recurse. -/
def compareFileStructure (current previous : FileNode) (basePath : String) :
    List FieldChange :=
  let currentPath := if basePath = "" then current.name
                     else basePath ++ "/" ++ current.name
  if current.ftype ≠ previous.ftype then
    [{ path := currentPath, status := .modified, changes := [.type_changed],
       severity := .breaking,
       suggestedMigration :=
         "File type changed from " ++ previous.ftype.str ++ " to " ++
           current.ftype.str }]
  else
    match current.ftype with
    | .file =>
        if current.size ≠ previous.size then
          [{ path := currentPath, status := .modified, severity := .patch,
             suggestedMigration := "File size changed" }]
        else []
    | .directory =>
        let curM := jsMap current.children
        let prevM := jsMap previous.children
        (curM.filterMap (fun p =>
          if hasKeyM prevM p.1 then none
          else some { path := currentPath ++ "/" ++ p.1, status := .added,
                      severity := .minor,
                      suggestedMigration := "New file/directory added" }))
        ++ (prevM.filterMap (fun p =>
          if hasKeyM curM p.1 then none
          else some { path := currentPath ++ "/" ++ p.1, status := .removed,
                      severity := .breaking,
                      suggestedMigration :=
                        "Remove references to " ++ currentPath ++ "/" ++ p.1 }))
        ++ (curM.attach.flatMap (fun p =>
          match lookupM prevM p.1.1 with
          | some prevChild => compareFileStructure p.1.2 prevChild currentPath
          | none => []))
termination_by sizeOf current
decreasing_by
  obtain ⟨⟨k, child⟩, hp⟩ := p
  have h1 := mem_jsMap hp
  have h2 := List.sizeOf_lt_of_mem h1
  cases current with
  | mk n t s cs =>
      simp only [FileNode.children] at h2
      simp only [FileNode.mk.sizeOf_spec]
      omega

/-- Version bump kinds: the `'major' | 'minor' | 'patch' | 'initial'`
union used by the version manager and `calculateSeverity`. -/
inductive RelType where
  | initial | major | minor | patch
deriving DecidableEq

/-- `ValidationMetadata` from `src/types/index.ts`. -/
structure ValidationMetadataM where
  version : String
  validatorVersion : String
  timestamp : String
  exportHash : String
  previousVersion : Option String := none
  changeType : Option RelType := none
  changeSummary : Option String := none
  breaking : Bool
deriving DecidableEq

/-- `ExportSnapshot` from `src/types/index.ts`; `struct` models the
`structure` field (a Lean keyword). -/
structure ExportSnapshot where
  metadata : ValidationMetadataM
  struct : FileNode
  schemas : List (String × JVal)
  checksum : String

/-- `ChangeDetector.detectChanges`: file-structure changes followed by
schema changes. -/
def detectChanges (current previous : ExportSnapshot) : List FieldChange :=
  compareFileStructure current.struct previous.struct ""
    ++ compareSchemas current.schemas previous.schemas

/-- `ChangeDetector.calculateSeverity`: any breaking change is a major
bump, else any minor change a minor bump, else a patch bump. -/
def calculateSeverity (changes : List FieldChange) : RelType :=
  if changes.any (fun c => c.severity == ChangeSeverity.breaking) then .major
  else if changes.any (fun c => c.severity == ChangeSeverity.minor) then .minor
  else .patch

/-! ## Version manager (`src/core/versionManager.ts`) -/

/-- A plain `X.Y.Z` semantic version (the only shape this system ever
produces; no prerelease or build parts). -/
structure SemVer where
  major : Nat
  minor : Nat
  patch : Nat
deriving DecidableEq

/-- `semver.inc` on a plain release version: `major`/`minor`/`patch` bump
and reset the lower components; an invalid release kind (here `initial`)
makes `semver.inc` return `null`. -/
def semverInc (v : SemVer) : RelType → Option SemVer
  | .major => some ⟨v.major + 1, 0, 0⟩
  | .minor => some ⟨v.major, v.minor + 1, 0⟩
  | .patch => some ⟨v.major, v.minor, v.patch + 1⟩
  | .initial => none

/-- The version/changeType computation of `VersionManager.createVersion`:
with no latest version the result is `1.0.0` and the change type is forced
to `initial`; otherwise `semver.inc(previousVersion, changeType)` with a
`|| '1.0.0'` fallback. -/
def createVersionCore (latest : Option SemVer) (changeType : RelType) :
    SemVer × RelType :=
  match latest with
  | none => (⟨1, 0, 0⟩, .initial)
  | some v => ((semverInc v changeType).getD ⟨1, 0, 0⟩, changeType)

/-- The manifest object persisted in `versions.json`. -/
structure ManifestM where
  versions : List ValidationMetadataM
  latest : Option String
deriving DecidableEq

/-- The observable state of the `versions.json` file: absent, present with
unparseable content, or present with a parsed manifest. -/
inductive ManifestFile where
  | missing
  | corrupt
  | stored (m : ManifestM)

/-- `VersionManager.readVersionManifest`: `fs.readFile` rejects on a
missing file and `JSON.parse` throws on unparseable content; there is no
error handling, so both surface as errors. -/
def readVersionManifest : ManifestFile → Except String ManifestM
  | .missing => .error "ENOENT: no such file or directory"
  | .corrupt => .error "SyntaxError: Unexpected token in JSON"
  | .stored m => .ok m

/-- `VersionManager.getLatestVersion`. -/
def getLatestVersion (f : ManifestFile) : Except String (Option String) :=
  (readVersionManifest f).map (fun m => m.latest)

/-- Parse an `X.Y.Z` version string (the only form this system writes). -/
def parseSemVer (s : String) : Option SemVer :=
  match s.splitOn "." with
  | [a, b, c] =>
      match a.toNat?, b.toNat?, c.toNat? with
      | some x, some y, some z => some ⟨x, y, z⟩
      | _, _, _ => none
  | _ => none

/-- Strict semver order on plain release versions. -/
def semverLtB (a b : SemVer) : Bool :=
  a.major < b.major ||
    (a.major = b.major &&
      (a.minor < b.minor || (a.minor = b.minor && a.patch < b.patch)))

/-- `semver.rcompare(a.version, b.version) < 0`, i.e. `a` sorts before `b`
in descending order (invalid version strings, which this system never
writes, compare as `0.0.0`). -/
def versionGtB (a b : ValidationMetadataM) : Bool :=
  semverLtB ((parseSemVer b.version).getD ⟨0, 0, 0⟩)
    ((parseSemVer a.version).getD ⟨0, 0, 0⟩)

/-- Stable insertion into a descending-sorted list. -/
def insertDesc (x : ValidationMetadataM) :
    List ValidationMetadataM → List ValidationMetadataM
  | [] => [x]
  | y :: ys => if versionGtB x y then x :: y :: ys else y :: insertDesc x ys

/-- Stable descending sort by version, modelling
`[...manifest.versions].sort((a, b) => semver.rcompare(a.version, b.version))`. -/
def sortVersionsDesc (l : List ValidationMetadataM) : List ValidationMetadataM :=
  l.foldr insertDesc []

/-- `VersionManager.getVersionHistory`: sort descending, then
`limit ? versions.slice(0, limit) : versions` (note the JS truthiness:
`limit = 0` returns the full list). -/
def getVersionHistory (f : ManifestFile) (limit : Option Nat) :
    Except String (List ValidationMetadataM) :=
  (readVersionManifest f).map (fun m =>
    let sorted := sortVersionsDesc m.versions
    match limit with
    | some l => if l ≠ 0 then sorted.take l else sorted
    | none => sorted)

/-- `VersionManager.initialize`: creates the manifest file with
`{versions: [], latest: null}` only when it does not exist; an existing
(even unreadable) file is left untouched. -/
def initManifest : ManifestFile → ManifestFile
  | .missing => .stored ⟨[], none⟩
  | f => f

/-! ## The version-bump slice of `ExportValidator.validate`
(`src/core/validator.ts`): when a previous snapshot exists, the change type
passed to `createVersion` is `calculateSeverity` of the detected changes. -/

/-- Composition performed by `ExportValidator.validate` when a previous
snapshot exists: `createVersion(this.changeDetector.calculateSeverity(changes), ...)`
with `latest` the manifest's latest version. -/
def validateVersionBump (latest : Option SemVer) (changes : List FieldChange) :
    SemVer × RelType :=
  createVersionCore latest (calculateSeverity changes)

/-! ## Schema inference (`src/analyzers/schemaInference.ts`) -/

/-- Inference modes. -/
inductive InferMode where
  | strict | loose | auto
deriving DecidableEq

/-- Sampling strategies. -/
inductive SampleStrategy where
  | first | random | stratified
deriving DecidableEq

/-- `SchemaInferenceOptions`; `randDraws` injects the sequence of
`Math.floor(Math.random() * length)` draws used by the `random` strategy,
making the embedding deterministic. -/
structure SchemaInferenceOptions where
  mode : InferMode
  sampleSize : Nat
  sampleStrategy : SampleStrategy
  maxArraySample : Nat
  maxDepth : Nat
  randDraws : List Nat := []

/-- String formats detected by `inferStringSchema`. -/
inductive StrFormat where
  | datetime | uuid | email | url
deriving DecidableEq

/-- The closed schema model: the Zod schema shapes the engine constructs
(`z.any`, `z.null`, `z.undefined`, `z.number`, `z.boolean`, `z.string`
with an optional detected format, `z.array`, `z.union`, `z.optional`,
`z.nullable`, `z.object`). -/
inductive ZSchema where
  | zany | znull | zundefined | znumber | zboolean
  | zstring (fmt : Option StrFormat)
  | zarray (el : ZSchema)
  | zunion (members : List ZSchema)
  | zoptional (inner : ZSchema)
  | znullable (inner : ZSchema)
  | zobject (shape : List (String × ZSchema))

/-- Character-class test at a string position. -/
def matchesClassAt (cs : List Char) (i : Nat) (p : Char → Bool) : Bool :=
  match cs.get? i with
  | some c => p c
  | none => false

/-- `/^\d{4}-\d{2}-\d{2}T\d{2}:\d{2}:\d{2}/` (prefix match). -/
def datetimeLike (s : String) : Bool :=
  let cs := s.toList
  ([0, 1, 2, 3].all fun i => matchesClassAt cs i Char.isDigit) &&
  matchesClassAt cs 4 (· = '-') &&
  ([5, 6].all fun i => matchesClassAt cs i Char.isDigit) &&
  matchesClassAt cs 7 (· = '-') &&
  ([8, 9].all fun i => matchesClassAt cs i Char.isDigit) &&
  matchesClassAt cs 10 (· = 'T') &&
  ([11, 12].all fun i => matchesClassAt cs i Char.isDigit) &&
  matchesClassAt cs 13 (· = ':') &&
  ([14, 15].all fun i => matchesClassAt cs i Char.isDigit) &&
  matchesClassAt cs 16 (· = ':') &&
  ([17, 18].all fun i => matchesClassAt cs i Char.isDigit)

/-- Hex digit, either case (the uuid regex carries the `i` flag). -/
def isHexChar (c : Char) : Bool :=
  c.isDigit || ('a' ≤ c && c ≤ 'f') || ('A' ≤ c && c ≤ 'F')

/-- `/^[a-f0-9]{8}-[a-f0-9]{4}-[a-f0-9]{4}-[a-f0-9]{4}-[a-f0-9]{12}$/i`. -/
def uuidLike (s : String) : Bool :=
  let cs := s.toList
  cs.length = 36 &&
  ((List.range 36).all fun i =>
    if i = 8 || i = 13 || i = 18 || i = 23 then matchesClassAt cs i (· = '-')
    else matchesClassAt cs i isHexChar)

/-- `/^[^\s@]+@[^\s@]+\.[^\s@]+$/`: exactly one `@`, no whitespace, and a
dot strictly inside the domain part (JS `\s` is modelled by
`Char.isWhitespace`). -/
def emailLike (s : String) : Bool :=
  match s.splitOn "@" with
  | [lp, domain] =>
      lp ≠ "" && lp.toList.all (fun c => !c.isWhitespace) &&
      domain.toList.all (fun c => !c.isWhitespace) &&
      ((domain.toList.drop 1).dropLast.contains '.')
  | _ => false

/-- `/^https?:\/\//`. -/
def urlLike (s : String) : Bool :=
  s.startsWith "http://" || s.startsWith "https://"

/-- `SchemaInferenceEngine.inferStringSchema`: fixed format precedence
datetime > uuid > email > url > plain string. -/
def inferStringSchema (s : String) : ZSchema :=
  if datetimeLike s then .zstring (some .datetime)
  else if uuidLike s then .zstring (some .uuid)
  else if emailLike s then .zstring (some .email)
  else if urlLike s then .zstring (some .url)
  else .zstring none

/-- The `while (samples.length < sampleSize)` loop of the `random`
strategy, driven by the injected draw sequence: an unseen in-range index
contributes `arr[index]`; the loop stops when enough samples are gathered
(or when the injected draws run out — the JS loop would keep drawing). -/
def randSamplesGo (arr : List α) (sampleSize : Nat) :
    List Nat → List Nat → List α
  | [], _ => []
  | d :: ds, indices =>
      if indices.length ≥ sampleSize then []
      else if indices.contains d then randSamplesGo arr sampleSize ds indices
      else
        match arr.get? d with
        | some x => x :: randSamplesGo arr sampleSize ds (indices ++ [d])
        | none => randSamplesGo arr sampleSize ds indices

/-- `SchemaInferenceEngine.getSamples`: identity when the input fits the
sample size; `first` takes a prefix; `random` draws distinct indices;
`stratified` takes `min(1000, sampleSize)` from the front plus a recursive
sample of the tail beyond index 1000, truncated to the remaining budget. -/
def getSamples (opts : SchemaInferenceOptions) (arr : List α) : List α :=
  if arr.length ≤ opts.sampleSize then arr
  else
    match opts.sampleStrategy with
    | .first => arr.take opts.sampleSize
    | .random => randSamplesGo arr opts.sampleSize opts.randDraws []
    | .stratified =>
        let firstSamples := arr.take (min 1000 opts.sampleSize)
        let remainingSize := opts.sampleSize - firstSamples.length
        let randomSamples := getSamples opts (arr.drop 1000)
        firstSamples ++ randomSamples.take remainingSize
termination_by arr.length

theorem mem_randSamplesGo {arr : List α} {n : Nat} :
    ∀ (draws indices : List Nat) (x : α),
      x ∈ randSamplesGo arr n draws indices → x ∈ arr := by
  intro draws
  induction draws with
  | nil => intro indices x h; simp [randSamplesGo] at h
  | cons d ds ih =>
      intro indices x h
      unfold randSamplesGo at h
      split at h
      · simp at h
      · split at h
        · exact ih indices x h
        · split at h
          next y hy =>
              rcases List.mem_cons.mp h with h1 | h1
              · exact h1 ▸ List.get?_mem hy
              · exact ih _ x h1
          next => exact ih indices x h

theorem mem_getSamples {opts : SchemaInferenceOptions} :
    ∀ (arr : List α) (x : α), x ∈ getSamples opts arr → x ∈ arr := by
  have key : ∀ (n : Nat) (arr : List α), arr.length = n →
      ∀ x, x ∈ getSamples opts arr → x ∈ arr := by
    intro n
    induction n using Nat.strong_induction_on with
    | _ n ih =>
        intro arr hlen x h
        unfold getSamples at h
        split at h
        · exact h
        · split at h
          · exact List.take_subset _ _ h
          · exact mem_randSamplesGo _ _ x h
          · rcases List.mem_append.mp h with h1 | h1
            · exact List.take_subset _ _ h1
            · have h2 := List.take_subset _ _ h1
              have hle : ¬ arr.length ≤ opts.sampleSize := by assumption
              have hlen2 : (arr.drop 1000).length < n := by
                simp only [List.length_drop]
                omega
              exact List.drop_subset _ _
                (ih _ hlen2 (arr.drop 1000) rfl x h2)
  intro arr x h
  exact key arr.length arr rfl x h

/-- `SchemaInferenceEngine.getSchemaKey`: the coarse comparison key — only
the top-level Zod class is distinguished (all strings collapse to
`"string"` regardless of detected format; unions, optionals, nullables and
`z.any` all collapse to `"any"`). -/
def getSchemaKey : ZSchema → String
  | .zstring _ => "string"
  | .znumber => "number"
  | .zboolean => "boolean"
  | .znull => "null"
  | .zundefined => "undefined"
  | .zarray _ => "array"
  | .zobject _ => "object"
  | _ => "any"

/-- One step of `getUniqueSchemas`'s loop: keep the schema when its key is
unseen (the accumulator pairs the kept schemas with the seen keys). -/
def uniqStep (acc : List ZSchema × List String) (s : ZSchema) :
    List ZSchema × List String :=
  if acc.2.contains (getSchemaKey s) then acc
  else (acc.1 ++ [s], acc.2 ++ [getSchemaKey s])

/-- `SchemaInferenceEngine.getUniqueSchemas`: keep the first schema seen
for each distinct `getSchemaKey`. -/
def getUniqueSchemas (schemas : List ZSchema) : List ZSchema :=
  (schemas.foldl uniqStep ([], [])).1

mutual

/-- `SchemaInferenceEngine.inferFromValue`: depth cap to `z.any`, scalar
mapping, arrays and objects recurse (JSON values cannot be `undefined`, so
the `z.undefined()` branch is unreachable here). -/
def inferFromValue (opts : SchemaInferenceOptions) (v : JVal) (depth : Nat) :
    ZSchema :=
  if depth > opts.maxDepth then .zany
  else
    match v with
    | .jnull => .znull
    | .jstr s => inferStringSchema s
    | .jnum _ => .znumber
    | .jbool _ => .zboolean
    | .jarr xs => inferArraySchema opts xs depth
    | .jobj fs => inferObjectSchema opts fs depth
termination_by (sizeOf v, 0)
decreasing_by
  all_goals
    apply Prod.Lex.left
    simp only [JVal.jarr.sizeOf_spec, JVal.jobj.sizeOf_spec]
    omega

/-- `SchemaInferenceEngine.inferArraySchema`: empty arrays give
`z.array(z.any())`; otherwise sample, infer element types, deduplicate,
and wrap a single survivor directly or several in a union. -/
def inferArraySchema (opts : SchemaInferenceOptions) (arr : List JVal)
    (depth : Nat) : ZSchema :=
  if arr = [] then .zarray .zany
  else
    let samples := getSamples opts arr
    let schemas := samples.attach.map (fun p => inferFromValue opts p.1 (depth + 1))
    match getUniqueSchemas schemas with
    | [u] => .zarray u
    | us => .zarray (.zunion us)
termination_by (sizeOf arr, 1)
decreasing_by
  apply Prod.Lex.left
  have h1 := mem_getSamples arr p.1 p.2
  have h2 := List.sizeOf_lt_of_mem h1
  omega

/-- `SchemaInferenceEngine.inferObjectSchema`: infer every field; in
`strict` mode a field whose sampled value is literally `null` is wrapped in
`nullable`. -/
def inferObjectSchema (opts : SchemaInferenceOptions)
    (fs : List (String × JVal)) (depth : Nat) : ZSchema :=
  .zobject (fs.attach.map (fun p =>
    let s := inferFromValue opts p.1.2 (depth + 1)
    (p.1.1, if opts.mode = .strict ∧ p.1.2 = .jnull then ZSchema.znullable s
            else s)))
termination_by (sizeOf fs, 1)
decreasing_by
  apply Prod.Lex.left
  have h2 := List.sizeOf_lt_of_mem p.2
  have h3 : sizeOf (p.1).2 < sizeOf p.1 := by
    obtain ⟨k, v⟩ := p.1
    simp only [Prod.mk.sizeOf_spec]
    omega
  omega

end

/-- `SchemaInferenceEngine.inferFromArray` (used for CSV row lists): per
key seen in any object-typed item, the field type is built from all
non-`undefined` values (nulls included), deduplicated and unioned; the
nullability wrapper is governed by mode — `strict` wraps on any null,
`auto` wraps when `nullCount / arr.length > 0.05` (exact rational
comparison `20 * nullCount > arr.length`; the JS source compares IEEE
doubles, which agree on all realistic sizes), `loose` never wraps; a field
missing from some item is wrapped `optional`.  The per-key loop body is
factored into the standalone pieces `nullCountOf`, `fbSchema0` and
`fieldBuild`; `inferFromArray` below keeps the source's key iteration and
empty-values guard. -/
def nullCountOf (arr : List JVal) (key : String) : Nat :=
  (arr.filter (fun item => propGet item key = some .jnull)).length

/-- The deduplicated value type of one field before the nullable/optional
wrappers: the union of the inferred types of all non-`undefined` values
(one survivor stays bare, several become a union). -/
def fbSchema0 (opts : SchemaInferenceOptions) (arr : List JVal) (key : String) :
    ZSchema :=
  match getUniqueSchemas ((arr.filterMap (fun item => propGet item key)).map
      (fun v => inferFromValue opts v 0)) with
  | [u] => u
  | us => ZSchema.zunion us

/-- The full per-key field schema of `inferFromArray`: `fbSchema0` plus
the mode-governed nullable wrapper plus the optional wrapper for partially
missing keys. -/
def fieldBuild (opts : SchemaInferenceOptions) (arr : List JVal) (key : String) :
    ZSchema :=
  let missingCount :=
    arr.length - (arr.filter (fun item => (keysOf item).contains key)).length
  let schema1 :=
    if opts.mode = .strict ∧ nullCountOf arr key > 0 then
      ZSchema.znullable (fbSchema0 opts arr key)
    else if opts.mode = .auto ∧ 20 * nullCountOf arr key > arr.length then
      ZSchema.znullable (fbSchema0 opts arr key)
    else fbSchema0 opts arr key
  if missingCount > 0 then ZSchema.zoptional schema1 else schema1

def inferFromArray (opts : SchemaInferenceOptions) (arr : List JVal) : ZSchema :=
  if arr = [] then .zarray .zany
  else
    let allKeys := jsDedup (arr.flatMap keysOf)
    let shape := allKeys.filterMap (fun key =>
      let values := arr.filterMap (fun item => propGet item key)
      if values.isEmpty then none
      else some (key, fieldBuild opts arr key))
    .zarray (.zobject shape)

/-- The schema inferred for one field of `inferFromArray`'s result. -/
def inferredFieldSchema (opts : SchemaInferenceOptions) (arr : List JVal)
    (key : String) : Option ZSchema :=
  match inferFromArray opts arr with
  | .zarray (.zobject shape) => shape.lookup key
  | _ => none


/-! ## Auxiliary predicates and concrete inputs used by the theorems -/

/-- Is the top constructor a `nullable` wrapper? -/
def nullableHead : ZSchema → Bool
  | .znullable _ => true
  | _ => false

/-- Is the top constructor a union? -/
def unionHead : ZSchema → Bool
  | .zunion _ => true
  | _ => false

/-- Is the top constructor an `optional` wrapper? -/
def optionalHead : ZSchema → Bool
  | .zoptional _ => true
  | _ => false

/-- Remove a top-level `optional` wrapper, if any. -/
def stripOptional : ZSchema → ZSchema
  | .zoptional i => i
  | s => s

/-- Remove a top-level `nullable` wrapper, if any. -/
def stripNullable : ZSchema → ZSchema
  | .znullable i => i
  | s => s

mutual

/-- Well-formedness of a JSON value as a JS runtime object: every object
level has pairwise-distinct keys (JS objects cannot hold duplicate keys;
the association-list embedding can express them, so theorems about
arbitrary snapshots assume this). -/
def wfKeys : JVal → Bool
  | .jobj fs => decide (fs.map Prod.fst).Nodup && wfKeysFields fs
  | .jarr xs => wfKeysList xs
  | _ => true

def wfKeysList : List JVal → Bool
  | [] => true
  | x :: xs => wfKeys x && wfKeysList xs

def wfKeysFields : List (String × JVal) → Bool
  | [] => true
  | (_, v) :: rest => wfKeys v && wfKeysFields rest

end

/-- Well-formedness of a snapshot's schema map: every stored schema value
is truthy (a serialized Zod schema is a non-null object) and has
well-formed object keys. -/
def schemasWf (m : List (String × JVal)) : Bool :=
  m.all (fun p => p.2.truthy && wfKeys p.2)

/-- The serialized form of `z.string()`:
`JSON.stringify` keeps only the `_def` data of the Zod object. -/
def zodStringJ : JVal :=
  .jobj [("_def", .jobj [("checks", .jarr []), ("typeName", .jstr "ZodString"),
                         ("coerce", .jbool false)])]

/-- The serialized form of `z.string().nullable()`: the same schema with
nullability added and nothing else changed. -/
def zodNullableStringJ : JVal :=
  .jobj [("_def", .jobj [("innerType", zodStringJ),
                         ("typeName", .jstr "ZodNullable")])]

/-- A concrete metadata record for example snapshots. -/
def exMeta : ValidationMetadataM :=
  { version := "1.0.0", validatorVersion := "1.0.0", timestamp := "t",
    exportHash := "h", breaking := false }

/-- A small concrete snapshot (one structured file, one schema). -/
def exSnap : ExportSnapshot :=
  { metadata := exMeta,
    struct := .mk "root" .directory none [.mk "users.json" .file (some 3) []],
    schemas := [("users", zodStringJ)], checksum := "c" }

/-- Current snapshot for the ordering counterexample: two schemas whose
names are inserted in reverse lexical order. -/
def c5cur : ExportSnapshot :=
  { metadata := exMeta, struct := .mk "root" .file (some 1) [],
    schemas := [("b", zodStringJ), ("a", zodStringJ)], checksum := "c" }

/-- Previous snapshot for the ordering counterexample: no schemas, same
structure. -/
def c5prev : ExportSnapshot :=
  { metadata := exMeta, struct := .mk "root" .file (some 1) [],
    schemas := [], checksum := "c" }

/-- Current directory tree for tree-diff examples: children `x` (new) and
`y` (size changed). -/
def exDirCur : FileNode :=
  .mk "root" .directory none [.mk "x" .file (some 1) [], .mk "y" .file (some 2) []]

/-- Previous directory tree for tree-diff examples: children `y` (size 3)
and `z` (removed in the current tree). -/
def exDirPrev : FileNode :=
  .mk "root" .directory none [.mk "y" .file (some 3) [], .mk "z" .file (some 4) []]

/-- Snapshots wrapping the example trees (no schemas). -/
def exSnapCur : ExportSnapshot :=
  { metadata := exMeta, struct := exDirCur, schemas := [], checksum := "c" }

def exSnapPrev : ExportSnapshot :=
  { metadata := exMeta, struct := exDirPrev, schemas := [], checksum := "c" }

/-- Example inference options (mode varies per example). -/
def exOpts (m : InferMode) : SchemaInferenceOptions :=
  { mode := m, sampleSize := 1000, sampleStrategy := .first,
    maxArraySample := 100, maxDepth := 10 }

/-- Two sibling objects whose field `a` is a number once and null once. -/
def exArrNull : List JVal := [.jobj [("a", .jnum 1)], .jobj [("a", .jnull)]]

/-- Twenty sibling objects, field `f` null exactly once (5 percent). -/
def exArr20one : List JVal :=
  List.replicate 19 (JVal.jobj [("f", .jnum 5)]) ++ [.jobj [("f", .jnull)]]

/-- A breaking change record used to instantiate severity hypotheses. -/
def cBreakRec : FieldChange :=
  { path := "p", status := .removed, severity := .breaking }

/-- A minor change record used to instantiate severity hypotheses. -/
def cMinorRec : FieldChange :=
  { path := "p", status := .added, severity := .minor }

/-- The removed-schema change emitted when diffing `c5prev` against
`c5cur` for the name `b`. -/
def c8rec : FieldChange :=
  { path := "b", status := .removed, previousV := some zodStringJ,
    severity := .breaking,
    suggestedMigration := "Remove usage of schema: b" }

/-- The first change emitted by `compareZodSchemas` on the
nullability-only pair (deletion of `_def.checks`). -/
def c2rec : FieldChange :=
  { path := "users._def.checks", status := .modified,
    changes := [.optional_removed], previousType := some "array",
    currentType := some "undefined", severity := .breaking,
    suggestedMigration := "Remove field access: users._def.checks" }

/-- The size-change record for child `y` of the example trees. -/
def c6yRec : FieldChange :=
  { path := "root/y", status := .modified, severity := .patch,
    suggestedMigration := "File size changed" }

/-- Twenty sibling objects, field `f` null exactly twice (10 percent). -/
def exArr20two : List JVal :=
  List.replicate 18 (JVal.jobj [("f", .jnum 5)]) ++
    [.jobj [("f", .jnull)], .jobj [("f", .jnull)]]

/-! ## Bridge lemmas about the JS container embeddings -/

theorem contains_iff_mem {l : List String} {a : String} :
    l.contains a = true ↔ a ∈ l := by
  simp [List.contains, List.elem_iff]

theorem lookup_mem {β : Type} {m : List (String × β)} {k : String} {v : β}
    (h : m.lookup k = some v) : (k, v) ∈ m := by
  induction m with
  | nil => simp [List.lookup] at h
  | cons p rest ih =>
      obtain ⟨a, b⟩ := p
      simp only [List.lookup] at h
      split at h
      · next heq =>
          have h1 : k = a := by simpa using heq
          have h2 : b = v := by simpa using h
          simp [h1, h2]
      · exact List.mem_cons_of_mem _ (ih h)

theorem lookup_of_mem_nodup {β : Type} {m : List (String × β)}
    (hn : (m.map Prod.fst).Nodup) {k : String} {v : β} (h : (k, v) ∈ m) :
    m.lookup k = some v := by
  induction m with
  | nil => simp at h
  | cons p rest ih =>
      obtain ⟨a, b⟩ := p
      simp only [List.map_cons, List.nodup_cons] at hn
      rcases List.mem_cons.mp h with h1 | h1
      · have hk : k = a := congrArg Prod.fst h1
        have hv : v = b := congrArg Prod.snd h1
        subst hk; subst hv
        simp [List.lookup]
      · have hne : (k == a) = false := by
          apply beq_eq_false_iff_ne.mpr
          intro he; subst he
          exact hn.1 (List.mem_map.mpr ⟨(k, v), h1, rfl⟩)
        simp only [List.lookup, hne]
        exact ih hn.2 h1

theorem jGetOpt_none_of_not_mem {fs : List (String × JVal)} {k : String}
    (h : k ∉ fs.map Prod.fst) : jGetOpt fs k = none := by
  induction fs with
  | nil => rfl
  | cons p rest ih =>
      simp only [List.map_cons, List.mem_cons, not_or] at h
      have h1 : ¬ p.1 = k := fun hh => h.1 hh.symm
      simp [jGetOpt, ih h.2, h1]

theorem jGetOpt_mem {fs : List (String × JVal)} {k : String} {v : JVal}
    (h : jGetOpt fs k = some v) : (k, v) ∈ fs := by
  induction fs with
  | nil => simp [jGetOpt] at h
  | cons p rest ih =>
      cases hr : jGetOpt rest k with
      | some w =>
          simp only [jGetOpt, hr] at h
          have hw : w = v := by simpa using h
          exact List.mem_cons_of_mem _ (ih (hw ▸ hr))
      | none =>
          simp only [jGetOpt, hr] at h
          split at h
          · next heq =>
              have hv : p.2 = v := by simpa using h
              have hp : p = (k, v) := by
                obtain ⟨a, b⟩ := p
                simp only [] at heq hv
                simp [heq, hv]
              exact hp ▸ List.mem_cons_self _ _
          · simp at h

theorem jGetOpt_of_mem_nodup {fs : List (String × JVal)}
    (hn : (fs.map Prod.fst).Nodup) {k : String} {v : JVal}
    (h : (k, v) ∈ fs) : jGetOpt fs k = some v := by
  induction fs with
  | nil => simp at h
  | cons p rest ih =>
      obtain ⟨a, b⟩ := p
      simp only [List.map_cons, List.nodup_cons] at hn
      rcases List.mem_cons.mp h with h1 | h1
      · have hk : k = a := congrArg Prod.fst h1
        have hv : v = b := congrArg Prod.snd h1
        subst hk; subst hv
        have hrest : jGetOpt rest k = none := jGetOpt_none_of_not_mem hn.1
        simp [jGetOpt, hrest]
      · simp [jGetOpt, ih hn.2 h1]

theorem jGetOpt_isSome_of_mem_keys {fs : List (String × JVal)} {k : String}
    (h : k ∈ fs.map Prod.fst) : ∃ v, jGetOpt fs k = some v := by
  induction fs with
  | nil => simp at h
  | cons p rest ih =>
      simp only [jGetOpt]
      cases hq : jGetOpt rest k with
      | some w => exact ⟨w, rfl⟩
      | none =>
          simp only [List.map_cons, List.mem_cons] at h
          rcases h with h1 | h1
          · exact ⟨p.2, by simp [h1]⟩
          · obtain ⟨v, hv⟩ := ih h1
            rw [hq] at hv
            exact absurd hv (by simp)

theorem mem_jsDedup_aux (l : List String) :
    ∀ (acc : List String) (x : String),
      (x ∈ l.foldl (fun acc k => if acc.contains k then acc else acc ++ [k]) acc
        ↔ x ∈ acc ∨ x ∈ l) := by
  induction l with
  | nil => intro acc x; simp
  | cons k l' ih =>
      intro acc x
      rw [List.foldl_cons, ih]
      constructor
      · rintro (h | h)
        · by_cases hc : acc.contains k = true
          · rw [if_pos hc] at h; exact Or.inl h
          · rw [if_neg hc] at h
            rcases List.mem_append.mp h with h1 | h1
            · exact Or.inl h1
            · simp at h1; simp [h1]
        · simp [h]
      · rintro (h | h)
        · left
          by_cases hc : acc.contains k = true
          · rwa [if_pos hc]
          · rw [if_neg hc]; exact List.mem_append_left _ h
        · rcases List.mem_cons.mp h with h1 | h1
          · left
            by_cases hc : acc.contains k = true
            · rw [if_pos hc]; exact h1 ▸ contains_iff_mem.mp hc
            · rw [if_neg hc]; simp [h1]
          · exact Or.inr h1

theorem mem_jsDedup {l : List String} {x : String} :
    x ∈ jsDedup l ↔ x ∈ l := by
  have := mem_jsDedup_aux l [] x
  simpa [jsDedup] using this

theorem jsDedup_nodup_aux (l : List String) :
    ∀ (acc : List String), acc.Nodup →
      (l.foldl (fun acc k => if acc.contains k then acc else acc ++ [k]) acc).Nodup := by
  induction l with
  | nil => intro acc h; simpa using h
  | cons k l' ih =>
      intro acc h
      rw [List.foldl_cons]
      apply ih
      by_cases hc : acc.contains k = true
      · rwa [if_pos hc]
      · rw [if_neg hc]
        rw [List.nodup_append]
        refine ⟨h, List.nodup_singleton k, ?_⟩
        intro a ha hak
        simp at hak
        exact hc (contains_iff_mem.mpr (hak ▸ ha))

theorem jsDedup_nodup (l : List String) : (jsDedup l).Nodup :=
  jsDedup_nodup_aux l [] List.nodup_nil

/-! ## Self-diff lemmas -/

theorem wfKeysFields_spec {fs : List (String × JVal)}
    (h : wfKeysFields fs = true) : ∀ p ∈ fs, wfKeys p.2 = true := by
  induction fs with
  | nil => intro p hp; simp at hp
  | cons q rest ih =>
      obtain ⟨k, v⟩ := q
      rw [wfKeysFields, Bool.and_eq_true] at h
      intro p hp
      rcases List.mem_cons.mp hp with h1 | h1
      · subst h1; exact h.1
      · exact ih h.2 p h1

theorem wfKeysList_spec {xs : List JVal} (h : wfKeysList xs = true) :
    ∀ x ∈ xs, wfKeys x = true := by
  induction xs with
  | nil => intro x hx; simp at hx
  | cons y rest ih =>
      rw [wfKeysList, Bool.and_eq_true] at h
      intro x hx
      rcases List.mem_cons.mp hx with h1 | h1
      · subst h1; exact h.1
      · exact ih h.2 x h1

theorem wfKeys_obj {fs : List (String × JVal)} (h : wfKeys (.jobj fs) = true) :
    (fs.map Prod.fst).Nodup ∧ ∀ p ∈ fs, wfKeys p.2 = true := by
  rw [wfKeys, Bool.and_eq_true, decide_eq_true_eq] at h
  exact ⟨h.1, wfKeysFields_spec h.2⟩

theorem wfKeys_arr {xs : List JVal} (h : wfKeys (.jarr xs) = true) :
    ∀ x ∈ xs, wfKeys x = true := by
  rw [wfKeys] at h
  exact wfKeysList_spec h

theorem ddiff_self (v : JVal) (hwf : wfKeys v = true) (p : List String) :
    ddiff p v v = [] := by
  have key : ∀ (n : Nat) (v : JVal), sizeOf v = n → wfKeys v = true →
      ∀ p, ddiff p v v = [] := by
    intro n
    induction n using Nat.strong_induction_on with
    | _ n ih =>
        intro v hn hwf p
        cases v with
        | jnull => simp [ddiff]
        | jbool b => simp [ddiff]
        | jnum m => simp [ddiff]
        | jstr s => simp [ddiff]
        | jarr xs =>
            have hwf' := wfKeys_arr hwf
            have hsub : ∀ x ∈ xs, sizeOf x < n := by
              intro x hx
              have h1 := List.sizeOf_lt_of_mem hx
              subst hn
              simp only [JVal.jarr.sizeOf_spec]
              omega
            have harr : ∀ (ys : List JVal), (∀ y ∈ ys, wfKeys y = true) →
                (∀ y ∈ ys, sizeOf y < n) → ∀ i, ddiffArr p i ys ys = [] := by
              intro ys
              induction ys with
              | nil => intro _ _ i; simp [ddiffArr]
              | cons y ys' ihl =>
                  intro hw hs i
                  have h1 : ddiff (p ++ [toString i]) y y = [] :=
                    ih (sizeOf y) (hs y (List.mem_cons_self _ _)) y rfl
                      (hw y (List.mem_cons_self _ _)) _
                  have h2 := ihl (fun z hz => hw z (List.mem_cons_of_mem _ hz))
                    (fun z hz => hs z (List.mem_cons_of_mem _ hz)) (i + 1)
                  simp [ddiffArr, h1, h2]
            simp only [ddiff, ne_eq, not_true_eq_false, if_neg, ite_false]
            simpa using harr xs hwf' hsub 0
        | jobj fs =>
            obtain ⟨hnod, hvals⟩ := wfKeys_obj hwf
            have hsub : ∀ q ∈ fs, sizeOf q.2 < n := by
              intro q hq
              have h1 := List.sizeOf_lt_of_mem hq
              have h2 : sizeOf q.2 < sizeOf q := by
                obtain ⟨a, b⟩ := q
                simp only [Prod.mk.sizeOf_spec]
                omega
              subst hn
              simp only [JVal.jobj.sizeOf_spec]
              omega
            simp only [ddiff, ne_eq, not_true_eq_false, if_neg, ite_false]
            refine List.append_eq_nil.mpr ⟨?_, ?_⟩
            · have hobj : ∀ (lf : List (String × JVal)), (∀ q ∈ lf, q ∈ fs) →
                  ddiffObjL p lf fs = [] := by
                intro lf
                induction lf with
                | nil => intro _; rfl
                | cons q rest ihl =>
                    intro hq
                    obtain ⟨k, v⟩ := q
                    have hmem : (k, v) ∈ fs := hq _ (List.mem_cons_self _ _)
                    have hc : ((fs.map Prod.fst).contains k) = true :=
                      contains_iff_mem.mpr
                        (List.mem_map.mpr ⟨(k, v), hmem, rfl⟩)
                    have hget : jGetOpt fs k = some v :=
                      jGetOpt_of_mem_nodup hnod hmem
                    have hd : ddiff (p ++ [k]) v v = [] :=
                      ih (sizeOf v) (hsub (k, v) hmem) v rfl
                        (hvals (k, v) hmem) _
                    simp [ddiffObjL, hc, hget, hd,
                      ihl (fun z hz => hq z (List.mem_cons_of_mem _ hz))]
                    exact ⟨v, hmem⟩
              exact hobj fs (fun q hq => hq)
            · rw [List.map_eq_nil_iff, List.filter_eq_nil_iff]
              intro q hq
              have hc : ((fs.map Prod.fst).contains q.1) = true :=
                contains_iff_mem.mpr (List.mem_map.mpr ⟨q, hq, rfl⟩)
              simp only [decide_not, Bool.not_eq_true', decide_eq_false_iff_not]
              simp [hc]
              exact ⟨q.2, hq⟩
  exact key (sizeOf v) v rfl hwf p

theorem compareZodSchemas_self (path : String) (v : JVal)
    (h : wfKeys v = true) : compareZodSchemas path v v = [] := by
  unfold compareZodSchemas
  rw [ddiff_self v h]
  rfl

theorem jsMapIns_keys (m : List (String × FileNode)) (k : String) (v : FileNode) :
    (jsMapIns m k v).map Prod.fst =
      if m.any (fun p => p.1 = k) then m.map Prod.fst
      else m.map Prod.fst ++ [k] := by
  unfold jsMapIns
  split
  · next hc =>
      rw [List.map_map]
      refine List.map_congr_left fun p _ => ?_
      by_cases hp : p.1 = k
      · simp [hp]
      · simp [hp]
  · next hc => simp

theorem jsMap_keys_nodup (cs : List FileNode) :
    ((jsMap cs).map Prod.fst).Nodup := by
  have key : ∀ (cs : List FileNode) (acc : List (String × FileNode)),
      (acc.map Prod.fst).Nodup →
      ((cs.foldl (fun m c => jsMapIns m c.name c) acc).map Prod.fst).Nodup := by
    intro cs
    induction cs with
    | nil => intro acc h; simpa using h
    | cons c cs' ih =>
        intro acc h
        rw [List.foldl_cons]
        apply ih
        rw [jsMapIns_keys]
        split
        · exact h
        · next hc =>
            rw [List.nodup_append]
            refine ⟨h, List.nodup_singleton _, ?_⟩
            intro a ha hak
            simp only [List.mem_singleton] at hak
            subst hak
            obtain ⟨p, hp, hpk⟩ := List.mem_map.mp ha
            exact hc (List.any_eq_true.mpr ⟨p, hp, by simp [hpk]⟩)
  exact key cs [] (by simp)

theorem hasKeyM_iff {m : List (String × FileNode)} {k : String} :
    hasKeyM m k = true ↔ k ∈ m.map Prod.fst := by
  simp [hasKeyM, List.any_eq_true, List.mem_map]

theorem lookupM_jsMap {cs : List FileNode} {k : String} {v : FileNode}
    (h : (k, v) ∈ jsMap cs) : lookupM (jsMap cs) k = some v :=
  lookup_of_mem_nodup (jsMap_keys_nodup cs) h

theorem compareFileStructure_self (node : FileNode) (base : String) :
    compareFileStructure node node base = [] := by
  have key : ∀ (n : Nat) (node : FileNode), sizeOf node = n →
      ∀ base, compareFileStructure node node base = [] := by
    intro n
    induction n using Nat.strong_induction_on with
    | _ n ih =>
        intro node hn base
        unfold compareFileStructure
        rw [if_neg (by simp)]
        cases ht : node.ftype with
        | file => simp
        | directory =>
            simp only []
            refine List.append_eq_nil.mpr ⟨List.append_eq_nil.mpr ⟨?_, ?_⟩, ?_⟩
            · rw [List.filterMap_eq_nil_iff]
              intro p hp
              have hk : hasKeyM (jsMap node.children) p.1 = true :=
                hasKeyM_iff.mpr (List.mem_map.mpr ⟨p, hp, rfl⟩)
              simp [hk]
            · rw [List.filterMap_eq_nil_iff]
              intro p hp
              have hk : hasKeyM (jsMap node.children) p.1 = true :=
                hasKeyM_iff.mpr (List.mem_map.mpr ⟨p, hp, rfl⟩)
              simp [hk]
            · rw [List.flatMap_eq_nil_iff]
              intro q _
              have hlk : lookupM (jsMap node.children) q.1.1 = some q.1.2 :=
                lookupM_jsMap q.2
              rw [hlk]
              have hszc : sizeOf q.1.2 < n := by
                have h1 := mem_jsMap q.2
                have h2 := List.sizeOf_lt_of_mem h1
                cases node with
                | mk nm t sz cs =>
                    simp only [FileNode.children] at h2
                    simp only [FileNode.mk.sizeOf_spec] at hn
                    omega
              exact ih _ hszc q.1.2 rfl _
  exact key (sizeOf node) node rfl base

theorem compareSchemas_self (m : List (String × JVal))
    (h : schemasWf m = true) : compareSchemas m m = [] := by
  unfold compareSchemas
  rw [List.flatMap_eq_nil_iff]
  intro k hk
  have hk2 : k ∈ m.map Prod.fst := by
    have h1 := mem_jsDedup.mp hk
    simpa using h1
  obtain ⟨v, hv⟩ := jGetOpt_isSome_of_mem_keys hk2
  have hmem := jGetOpt_mem hv
  have hwfv : v.truthy = true ∧ wfKeys v = true := by
    have h2 := (List.all_eq_true.mp h) (k, v) hmem
    simpa using h2
  rw [hv]
  simp [optTruthy, hwfv.1, compareZodSchemas_self k v hwfv.2]

/-- Helper shared by C7 and C10: a self-diff emits nothing as long as the
snapshot's schema values are serialized schema objects (truthy, unique
keys). -/
theorem detectChanges_self (S : ExportSnapshot)
    (h : schemasWf S.schemas = true) : detectChanges S S = [] := by
  unfold detectChanges
  rw [compareFileStructure_self, compareSchemas_self _ h]
  rfl

/-! ## Classification and ordering lemmas for the change detector -/

/-- Every change emitted by `compareZodSchemas` has status `modified` and
one of the three deep-diff-derived kind/severity pairs; in particular the
`nullable_added`/`nullable_removed` kinds are never emitted. -/
theorem compareZodSchemas_classify {path : String} {cur prev : JVal}
    {c : FieldChange} (hc : c ∈ compareZodSchemas path cur prev) :
    c.status = .modified ∧
    ((c.changes = [ChangeType.optional_added] ∧ c.severity = .minor) ∨
     (c.changes = [ChangeType.optional_removed] ∧ c.severity = .breaking) ∨
     (c.changes = [ChangeType.type_changed] ∧ c.severity = .breaking)) := by
  unfold compareZodSchemas at hc
  rcases List.mem_map.mp hc with ⟨r, _, rfl⟩
  obtain ⟨k, pth, lhs, rhs, idx, ik, iv⟩ := r
  cases k <;> simp

theorem compareSchemas_severity {cur prev : List (String × JVal)}
    {c : FieldChange} (hc : c ∈ compareSchemas cur prev) :
    (c.status = .removed → c.severity = .breaking) ∧
    (c.status = .added → c.severity = .minor) := by
  unfold compareSchemas at hc
  rcases List.mem_flatMap.mp hc with ⟨k, _, hbody⟩
  dsimp only at hbody
  split at hbody
  · simp only [List.mem_singleton] at hbody
    subst hbody
    simp
  · split at hbody
    · simp only [List.mem_singleton] at hbody
      subst hbody
      simp
    · split at hbody
      · have h1 := (compareZodSchemas_classify hbody).1
        constructor <;> intro h2 <;> rw [h1] at h2 <;> simp at h2
      · simp at hbody

theorem compareFileStructure_severity {a b : FileNode} {base : String}
    {c : FieldChange} (hc : c ∈ compareFileStructure a b base) :
    (c.status = .removed → c.severity = .breaking) ∧
    (c.status = .added → c.severity = .minor) := by
  have key : ∀ (n : Nat) (a : FileNode), sizeOf a = n → ∀ (b : FileNode)
      (base : String) (c : FieldChange), c ∈ compareFileStructure a b base →
      (c.status = .removed → c.severity = .breaking) ∧
      (c.status = .added → c.severity = .minor) := by
    intro n
    induction n using Nat.strong_induction_on with
    | _ n ih =>
        intro a hn b base c hc
        unfold compareFileStructure at hc
        dsimp only at hc
        split at hc
        · simp only [List.mem_singleton] at hc
          subst hc
          simp
        · split at hc
          · split at hc
            · simp only [List.mem_singleton] at hc
              subst hc
              simp
            · simp at hc
          · rcases List.mem_append.mp hc with hc1 | hc1
            · rcases List.mem_append.mp hc1 with hc2 | hc2
              · rcases List.mem_filterMap.mp hc2 with ⟨p, _, hfp⟩
                split at hfp
                · simp at hfp
                · simp only [Option.some.injEq] at hfp
                  subst hfp
                  simp
              · rcases List.mem_filterMap.mp hc2 with ⟨p, _, hfp⟩
                split at hfp
                · simp at hfp
                · simp only [Option.some.injEq] at hfp
                  subst hfp
                  simp
            · rcases List.mem_flatMap.mp hc1 with ⟨q, _, hq⟩
              split at hq
              · next prevChild _ =>
                  have hsz : sizeOf q.1.2 < n := by
                    have h1 := mem_jsMap q.2
                    have h2 := List.sizeOf_lt_of_mem h1
                    cases a with
                    | mk nm t sz cs =>
                        simp only [FileNode.children] at h2
                        simp only [FileNode.mk.sizeOf_spec] at hn
                        omega
                  exact ih _ hsz q.1.2 rfl prevChild _ c hq
              · simp at hq
  exact key (sizeOf a) a rfl b base c hc

/-- Helper shared by the severity claims: every change produced by
`detectChanges` respects removed ⇒ breaking and added ⇒ minor. -/
theorem detectChanges_severity {cur prev : ExportSnapshot} {c : FieldChange}
    (hc : c ∈ detectChanges cur prev) :
    (c.status = .removed → c.severity = .breaking) ∧
    (c.status = .added → c.severity = .minor) := by
  unfold detectChanges at hc
  rcases List.mem_append.mp hc with h | h
  · exact compareFileStructure_severity h
  · exact compareSchemas_severity h

/-- The added/removed schema-level changes appear in the order of the
deduplicated union of key lists (current's keys in insertion order, then
previous-only keys), as a sublist. -/
theorem compareSchemas_order (cur prev : List (String × JVal)) :
    List.Sublist
      (((compareSchemas cur prev).filter
        (fun c => c.status == ChangeStatus.added
          || c.status == ChangeStatus.removed)).map (fun c => c.path))
      (jsDedup (cur.map Prod.fst ++ prev.map Prod.fst)) := by
  unfold compareSchemas
  generalize jsDedup (cur.map Prod.fst ++ prev.map Prod.fst) = names
  induction names with
  | nil => simp
  | cons k names' ih =>
      rw [List.flatMap_cons, List.filter_append, List.map_append]
      have hseg :
          ((if !optTruthy (jGetOpt prev k) then
              [{ path := k, status := .added, currentV := jGetOpt cur k,
                 severity := .minor,
                 suggestedMigration := "New schema added" : FieldChange}]
            else if !optTruthy (jGetOpt cur k) then
              [{ path := k, status := .removed, previousV := jGetOpt prev k,
                 severity := .breaking,
                 suggestedMigration := "Remove usage of schema: " ++ k : FieldChange}]
            else
              match jGetOpt cur k, jGetOpt prev k with
              | some cs, some ps => compareZodSchemas k cs ps
              | _, _ => []).filter
            (fun c => c.status == ChangeStatus.added
              || c.status == ChangeStatus.removed)).map (fun c => c.path)
            = [k] ∨
          ((if !optTruthy (jGetOpt prev k) then
              [{ path := k, status := .added, currentV := jGetOpt cur k,
                 severity := .minor,
                 suggestedMigration := "New schema added" : FieldChange}]
            else if !optTruthy (jGetOpt cur k) then
              [{ path := k, status := .removed, previousV := jGetOpt prev k,
                 severity := .breaking,
                 suggestedMigration := "Remove usage of schema: " ++ k : FieldChange}]
            else
              match jGetOpt cur k, jGetOpt prev k with
              | some cs, some ps => compareZodSchemas k cs ps
              | _, _ => []).filter
            (fun c => c.status == ChangeStatus.added
              || c.status == ChangeStatus.removed)).map (fun c => c.path)
            = [] := by
        split
        · left; simp
        · split
          · left; simp
          · right
            split
            · next cs ps _ _ =>
                rw [List.map_eq_nil_iff, List.filter_eq_nil_iff]
                intro c hcc
                have h1 := (compareZodSchemas_classify hcc).1
                simp [h1]
            · simp
      rcases hseg with hseg | hseg
      · rw [hseg]
        exact List.Sublist.append (List.Sublist.refl [k]) ih
      · rw [hseg, List.nil_append]
        exact ih.cons k

/-! ## The claims -/

/-- C1: `createVersion` from the Empty state (no latest version) returns
`1.0.0` with change type `initial` regardless of the severity aggregate;
from a previous version `v`, a change list with any breaking severity
yields a major bump of `v` (minor and patch reset), else any minor severity
yields a minor bump (patch reset), else a patch bump; and the change-type
sequence `[initial, minor, major, patch]` from Empty yields
`1.0.0, 1.1.0, 2.0.0, 2.0.1`. -/
theorem claim_C1 :
    (∀ ct : RelType, createVersionCore none ct = (⟨1, 0, 0⟩, RelType.initial)) ∧
    (∀ (v : SemVer) (changes : List FieldChange),
      (∃ c ∈ changes, c.severity = ChangeSeverity.breaking) →
      validateVersionBump (some v) changes
        = (⟨v.major + 1, 0, 0⟩, RelType.major)) ∧
    (∀ (v : SemVer) (changes : List FieldChange),
      (∀ c ∈ changes, c.severity ≠ ChangeSeverity.breaking) →
      (∃ c ∈ changes, c.severity = ChangeSeverity.minor) →
      validateVersionBump (some v) changes
        = (⟨v.major, v.minor + 1, 0⟩, RelType.minor)) ∧
    (∀ (v : SemVer) (changes : List FieldChange),
      (∀ c ∈ changes, c.severity ≠ ChangeSeverity.breaking) →
      (∀ c ∈ changes, c.severity ≠ ChangeSeverity.minor) →
      validateVersionBump (some v) changes
        = (⟨v.major, v.minor, v.patch + 1⟩, RelType.patch)) ∧
    ((createVersionCore none RelType.initial).1 = ⟨1, 0, 0⟩ ∧
     (createVersionCore (some ⟨1, 0, 0⟩) RelType.minor).1 = ⟨1, 1, 0⟩ ∧
     (createVersionCore (some ⟨1, 1, 0⟩) RelType.major).1 = ⟨2, 0, 0⟩ ∧
     (createVersionCore (some ⟨2, 0, 0⟩) RelType.patch).1 = ⟨2, 0, 1⟩) := by
  refine ⟨fun ct => rfl, ?_, ?_, ?_, by decide⟩
  · rintro v changes ⟨c, hc, hsev⟩
    have hb : changes.any (fun c => c.severity == ChangeSeverity.breaking) = true :=
      List.any_eq_true.mpr ⟨c, hc, by simp [hsev]⟩
    simp [validateVersionBump, createVersionCore, calculateSeverity, hb, semverInc]
  · rintro v changes hnb ⟨c, hc, hsev⟩
    have hb : changes.any (fun c => c.severity == ChangeSeverity.breaking) = false := by
      rw [List.any_eq_false]
      intro x hx
      simp [hnb x hx]
    have hm : changes.any (fun c => c.severity == ChangeSeverity.minor) = true :=
      List.any_eq_true.mpr ⟨c, hc, by simp [hsev]⟩
    simp [validateVersionBump, createVersionCore, calculateSeverity, hb, hm,
      semverInc]
  · intro v changes hnb hnm
    have hb : changes.any (fun c => c.severity == ChangeSeverity.breaking) = false := by
      rw [List.any_eq_false]
      intro x hx
      simp [hnb x hx]
    have hm : changes.any (fun c => c.severity == ChangeSeverity.minor) = false := by
      rw [List.any_eq_false]
      intro x hx
      simp [hnm x hx]
    simp [validateVersionBump, createVersionCore, calculateSeverity, hb, hm,
      semverInc]

theorem claim_C1_witness :
    ((∃ c ∈ [cBreakRec], c.severity = ChangeSeverity.breaking) ∧
      validateVersionBump (some ⟨1, 2, 3⟩) [cBreakRec]
        = (⟨2, 0, 0⟩, RelType.major)) ∧
    validateVersionBump (some ⟨1, 2, 3⟩) [cMinorRec]
      = (⟨1, 3, 0⟩, RelType.minor) ∧
    validateVersionBump (some ⟨1, 2, 3⟩) [] = (⟨1, 2, 4⟩, RelType.patch) ∧
    createVersionCore none RelType.major = (⟨1, 0, 0⟩, RelType.initial) :=
  ⟨⟨⟨cBreakRec, by simp, rfl⟩,
    claim_C1.2.1 ⟨1, 2, 3⟩ _ ⟨cBreakRec, by simp, rfl⟩⟩,
   claim_C1.2.2.1 ⟨1, 2, 3⟩ _ (by decide) ⟨cMinorRec, by simp, rfl⟩,
   claim_C1.2.2.2.1 ⟨1, 2, 3⟩ [] (by simp) (by simp),
   claim_C1.1 RelType.major⟩

/-- C7: the self-diff of any snapshot is empty — neither the tree walk nor
the schema comparison emits a change when a snapshot is compared against
itself (the schema map holds serialized schema objects: truthy values with
well-formed keys, which `schemasWf` states). -/
theorem claim_C7 (S : ExportSnapshot) (h : schemasWf S.schemas = true) :
    detectChanges S S = [] :=
  detectChanges_self S h

theorem claim_C7_witness :
    schemasWf exSnap.schemas = true ∧ detectChanges exSnap exSnap = [] :=
  ⟨by decide, claim_C7 exSnap (by decide)⟩

/-- C8: every `FieldChange` emitted by `detectChanges` with status
`removed` has severity `breaking`, and every one with status `added` has
severity `minor`. -/
theorem claim_C8 (cur prev : ExportSnapshot) (c : FieldChange)
    (hc : c ∈ detectChanges cur prev) :
    (c.status = ChangeStatus.removed → c.severity = ChangeSeverity.breaking) ∧
    (c.status = ChangeStatus.added → c.severity = ChangeSeverity.minor) :=
  detectChanges_severity hc

theorem claim_C8_witness :
    (c8rec.status = ChangeStatus.removed →
      c8rec.severity = ChangeSeverity.breaking) ∧
    (c8rec.status = ChangeStatus.added →
      c8rec.severity = ChangeSeverity.minor) :=
  claim_C8 c5prev c5cur c8rec (by
    rw [detectChanges, compareFileStructure]
    simp only [c5cur, c5prev, FileNode.name, FileNode.ftype, FileNode.size,
      FileNode.children]
    norm_num
    decide)

/-- C10: a change list with no breaking and no minor severities (including
the empty list) yields `calculateSeverity = patch`; consequently a
validation run whose diff against the previous snapshot is empty still
creates a new version with a patch bump instead of leaving the version
unchanged. -/
theorem claim_C10 :
    (∀ changes : List FieldChange,
      (∀ c ∈ changes, c.severity ≠ ChangeSeverity.breaking) →
      (∀ c ∈ changes, c.severity ≠ ChangeSeverity.minor) →
      calculateSeverity changes = RelType.patch) ∧
    calculateSeverity [] = RelType.patch ∧
    (∀ (cur prev : ExportSnapshot) (v : SemVer),
      detectChanges cur prev = [] →
      validateVersionBump (some v) (detectChanges cur prev)
          = (⟨v.major, v.minor, v.patch + 1⟩, RelType.patch) ∧
      (⟨v.major, v.minor, v.patch + 1⟩ : SemVer) ≠ v) := by
  refine ⟨?_, by decide, ?_⟩
  · intro changes hnb hnm
    have hb : changes.any (fun c => c.severity == ChangeSeverity.breaking) = false := by
      rw [List.any_eq_false]
      intro x hx
      simp [hnb x hx]
    have hm : changes.any (fun c => c.severity == ChangeSeverity.minor) = false := by
      rw [List.any_eq_false]
      intro x hx
      simp [hnm x hx]
    simp [calculateSeverity, hb, hm]
  · intro cur prev v hempty
    rw [hempty]
    refine ⟨by simp [validateVersionBump, createVersionCore, calculateSeverity,
      semverInc], ?_⟩
    intro hcontra
    have := congrArg SemVer.patch hcontra
    simp at this

theorem claim_C10_witness :
    detectChanges exSnap exSnap = [] ∧
    (validateVersionBump (some ⟨1, 2, 3⟩) (detectChanges exSnap exSnap)
        = (⟨1, 2, 4⟩, RelType.patch) ∧
      (⟨1, 2, 4⟩ : SemVer) ≠ ⟨1, 2, 3⟩) :=
  ⟨detectChanges_self exSnap (by decide),
   claim_C10.2.2 exSnap exSnap ⟨1, 2, 3⟩ (detectChanges_self exSnap (by decide))⟩

/-- C9 counterexample: with a missing or unparseable `versions.json`, the
read operations do not behave as the Empty state — `getLatestVersion`
propagates the error instead of returning no latest version, and
`getVersionHistory` propagates it instead of returning an empty history. -/
theorem claim_C9_counterexample :
    getLatestVersion ManifestFile.missing ≠ Except.ok none ∧
    getLatestVersion ManifestFile.corrupt ≠ Except.ok none ∧
    getVersionHistory ManifestFile.corrupt none ≠ Except.ok [] := by
  refine ⟨?_, ?_, ?_⟩ <;> intro h <;> simp [getLatestVersion,
    getVersionHistory, readVersionManifest, Except.map] at h

/-- C9 amended: a missing or unparseable manifest makes the read
operations fail with a propagated error (there is no error handling in
`readVersionManifest`); the Empty-state behavior — no latest version and
an empty history — arises only from a well-formed empty manifest, such as
the one `initialize` writes when the file is absent. -/
theorem claim_C9_amended :
    (∃ e, getLatestVersion ManifestFile.missing = Except.error e) ∧
    (∃ e, getLatestVersion ManifestFile.corrupt = Except.error e) ∧
    (∃ e, getVersionHistory ManifestFile.missing none = Except.error e) ∧
    (∃ e, getVersionHistory ManifestFile.corrupt (some 5) = Except.error e) ∧
    getLatestVersion (initManifest ManifestFile.missing) = Except.ok none ∧
    getVersionHistory (initManifest ManifestFile.missing) none = Except.ok [] :=
  ⟨⟨_, rfl⟩, ⟨_, rfl⟩, ⟨_, rfl⟩, ⟨_, rfl⟩, rfl, rfl⟩

/-- C5 counterexample: the schema-level changes are emitted in key
insertion order, not lexically sorted — with current schema names inserted
as `b` then `a` (and identical file structures), the diff lists path `b`
before path `a`, though `a < b` lexically. -/
theorem claim_C5_counterexample :
    (detectChanges c5cur c5prev).map (fun c => c.path) = ["b", "a"] ∧
    ("a" : String) < "b" := by
  refine ⟨?_, by rw [String.lt_iff_toList_lt]; decide⟩
  rw [detectChanges, compareFileStructure]
  simp only [c5cur, c5prev, FileNode.name, FileNode.ftype, FileNode.size,
    FileNode.children]
  norm_num
  decide

/-- C5 amended: `diff` is deterministic and emits all file-tree changes
first, followed by the schema changes; the added/removed schema changes
follow the first-appearance order of the logical names (current snapshot's
keys in insertion order, then names only in the previous snapshot) — not
lexically sorted order. -/
theorem claim_C5_amended :
    (∀ cur prev : ExportSnapshot,
      detectChanges cur prev =
        compareFileStructure cur.struct prev.struct ""
          ++ compareSchemas cur.schemas prev.schemas) ∧
    (∀ (curS prevS : List (String × JVal)),
      List.Sublist
        (((compareSchemas curS prevS).filter
          (fun c => c.status == ChangeStatus.added
            || c.status == ChangeStatus.removed)).map (fun c => c.path))
        (jsDedup (curS.map Prod.fst ++ prevS.map Prod.fst))) :=
  ⟨fun _ _ => rfl, fun curS prevS => compareSchemas_order curS prevS⟩

/-- C2 counterexample: for a schema pair that differs only by added
nullability (serialized `z.string()` vs `z.string().nullable()` under the
same name), the diff does not classify the difference as a single
`nullable_added`/minor change: no emitted change carries `nullable_added`,
and breaking changes are emitted. -/
theorem claim_C2_counterexample :
    ((compareZodSchemas "users" zodNullableStringJ zodStringJ).map
        (fun c => (c.changes, c.severity)) =
      [([ChangeType.optional_removed], ChangeSeverity.breaking),
       ([ChangeType.type_changed], ChangeSeverity.breaking),
       ([ChangeType.optional_removed], ChangeSeverity.breaking),
       ([ChangeType.optional_added], ChangeSeverity.minor)]) ∧
    ((compareZodSchemas "users" zodNullableStringJ zodStringJ).all
      (fun c => !(c.changes.contains ChangeType.nullable_added))) = true ∧
    ((compareZodSchemas "users" zodNullableStringJ zodStringJ).any
      (fun c => c.severity == ChangeSeverity.breaking)) = true := by
  refine ⟨by decide, by decide, by decide⟩

/-- C2 amended: schema differences are classified only through the
deep-diff record kinds — every emitted change has status `modified` and is
either `optional_added`/minor (new property), `optional_removed`/breaking
(deleted property), or `type_changed`/breaking (edited value or array
change); the kinds `nullable_added` and `nullable_removed` are never
emitted, so a nullability-only difference surfaces as breaking
`type_changed`/`optional_*` changes on the serialized representation. -/
theorem claim_C2_amended (path : String) (cur prev : JVal) (c : FieldChange)
    (hc : c ∈ compareZodSchemas path cur prev) :
    c.status = ChangeStatus.modified ∧
    ChangeType.nullable_added ∉ c.changes ∧
    ChangeType.nullable_removed ∉ c.changes ∧
    ((c.changes = [ChangeType.optional_added]
        ∧ c.severity = ChangeSeverity.minor) ∨
     (c.changes = [ChangeType.optional_removed]
        ∧ c.severity = ChangeSeverity.breaking) ∨
     (c.changes = [ChangeType.type_changed]
        ∧ c.severity = ChangeSeverity.breaking)) := by
  obtain ⟨h1, h2⟩ := compareZodSchemas_classify hc
  refine ⟨h1, ?_, ?_, h2⟩ <;>
    rcases h2 with ⟨hh, _⟩ | ⟨hh, _⟩ | ⟨hh, _⟩ <;> rw [hh] <;> simp

/-- C6: in the recursive tree diff — (a) a kind mismatch yields exactly
one `modified`/breaking change and no descendant changes; (b) two files
differing only in size yield exactly one `modified`/patch change; (c) a
child name present only in the current directory yields an `added`/minor
change; (d) a child name present only in the previous directory yields a
`removed`/breaking change; (e) children matched by name are recursed into,
all their changes appearing in the result. -/
theorem claim_C6 :
    (∀ (cur prev : FileNode) (base : String), cur.ftype ≠ prev.ftype →
      compareFileStructure cur prev base =
        [{ path := if base = "" then cur.name else base ++ "/" ++ cur.name,
           status := .modified, changes := [.type_changed],
           severity := .breaking,
           suggestedMigration := "File type changed from "
             ++ prev.ftype.str ++ " to " ++ cur.ftype.str }]) ∧
    (∀ (cur prev : FileNode) (base : String), cur.ftype = .file →
      prev.ftype = .file → cur.size ≠ prev.size →
      compareFileStructure cur prev base =
        [{ path := if base = "" then cur.name else base ++ "/" ++ cur.name,
           status := .modified, severity := .patch,
           suggestedMigration := "File size changed" }]) ∧
    (∀ (cur prev : FileNode) (base : String) (name : String) (child : FileNode),
      cur.ftype = .directory → prev.ftype = .directory →
      (name, child) ∈ jsMap cur.children →
      hasKeyM (jsMap prev.children) name = false →
      ({ path := (if base = "" then cur.name else base ++ "/" ++ cur.name)
           ++ "/" ++ name,
         status := .added, severity := .minor,
         suggestedMigration := "New file/directory added" } : FieldChange)
        ∈ compareFileStructure cur prev base) ∧
    (∀ (cur prev : FileNode) (base : String) (name : String) (child : FileNode),
      cur.ftype = .directory → prev.ftype = .directory →
      (name, child) ∈ jsMap prev.children →
      hasKeyM (jsMap cur.children) name = false →
      ({ path := (if base = "" then cur.name else base ++ "/" ++ cur.name)
           ++ "/" ++ name,
         status := .removed, severity := .breaking,
         suggestedMigration := "Remove references to "
           ++ (if base = "" then cur.name else base ++ "/" ++ cur.name)
           ++ "/" ++ name } : FieldChange)
        ∈ compareFileStructure cur prev base) ∧
    (∀ (cur prev : FileNode) (base : String) (name : String)
        (child prevChild : FileNode),
      cur.ftype = .directory → prev.ftype = .directory →
      (name, child) ∈ jsMap cur.children →
      lookupM (jsMap prev.children) name = some prevChild →
      ∀ c ∈ compareFileStructure child prevChild
          (if base = "" then cur.name else base ++ "/" ++ cur.name),
        c ∈ compareFileStructure cur prev base) := by
  refine ⟨?_, ?_, ?_, ?_, ?_⟩
  · intro cur prev base h
    rw [compareFileStructure]
    rw [if_pos h]
  · intro cur prev base hcur hprev hsz
    rw [compareFileStructure]
    rw [if_neg (by simp [hcur, hprev])]
    simp only [hcur]
    rw [if_pos hsz]
  · intro cur prev base name child hcur hprev hmem hnk
    rw [compareFileStructure]
    rw [if_neg (by simp [hcur, hprev])]
    simp only [hcur]
    apply List.mem_append_left
    apply List.mem_append_left
    apply List.mem_filterMap.mpr
    exact ⟨(name, child), hmem, by simp [hnk]⟩
  · intro cur prev base name child hcur hprev hmem hnk
    rw [compareFileStructure]
    rw [if_neg (by simp [hcur, hprev])]
    simp only [hcur]
    apply List.mem_append_left
    apply List.mem_append_right
    apply List.mem_filterMap.mpr
    exact ⟨(name, child), hmem, by simp [hnk]⟩
  · intro cur prev base name child prevChild hcur hprev hmem hlk c hc
    rw [compareFileStructure]
    rw [if_neg (by simp [hcur, hprev])]
    simp only [hcur]
    apply List.mem_append_right
    apply List.mem_flatMap.mpr
    refine ⟨⟨(name, child), hmem⟩, List.mem_attach _ _, ?_⟩
    simp only [hlk]
    exact hc

theorem claim_C6_witness :
    ((FileNode.mk "n" .file (some 1) []).ftype
        ≠ (FileNode.mk "n" .directory none []).ftype ∧
      compareFileStructure (.mk "n" .file (some 1) [])
          (.mk "n" .directory none []) "" =
        [{ path := "n", status := .modified, changes := [.type_changed],
           severity := .breaking,
           suggestedMigration := "File type changed from directory to file" }]) ∧
    compareFileStructure (.mk "y" .file (some 2) [])
        (.mk "y" .file (some 3) []) "root" =
      [{ path := "root/y", status := .modified, severity := .patch,
         suggestedMigration := "File size changed" }] ∧
    ({ path := "root/x", status := .added, severity := .minor,
       suggestedMigration := "New file/directory added" } : FieldChange)
      ∈ compareFileStructure exDirCur exDirPrev "" ∧
    ({ path := "root/z", status := .removed, severity := .breaking,
       suggestedMigration := "Remove references to root/z" } : FieldChange)
      ∈ compareFileStructure exDirCur exDirPrev "" ∧
    c6yRec ∈ compareFileStructure exDirCur exDirPrev "" := by
  have hb := claim_C6.2.1 (.mk "y" .file (some 2) [])
    (.mk "y" .file (some 3) []) "root" rfl rfl (by decide)
  refine ⟨⟨by decide, ?_⟩, ?_, ?_, ?_, ?_⟩
  · have ha := claim_C6.1 (.mk "n" .file (some 1) [])
      (.mk "n" .directory none []) "" (by decide)
    simpa using ha
  · simpa using hb
  · have hc := claim_C6.2.2.1 exDirCur exDirPrev "" "x"
      (.mk "x" .file (some 1) []) rfl rfl (by decide) (by decide)
    simpa [exDirCur] using hc
  · have hd := claim_C6.2.2.2.1 exDirCur exDirPrev "" "z"
      (.mk "z" .file (some 4) []) rfl rfl (by decide) (by decide)
    simpa [exDirCur] using hd
  · have he := claim_C6.2.2.2.2 exDirCur exDirPrev "" "y"
      (.mk "y" .file (some 2) []) (.mk "y" .file (some 3) []) rfl rfl
      (by decide) (by decide)
    have harg : (if "" = "" then exDirCur.name
        else "" ++ "/" ++ exDirCur.name) = "root" := by
      simp [exDirCur, FileNode.name]
    rw [harg] at he
    have hy : c6yRec ∈ compareFileStructure (.mk "y" .file (some 2) [])
        (.mk "y" .file (some 3) []) "root" := by
      rw [hb]
      decide
    exact he _ hy

theorem claim_C2_amended_witness :
    c2rec.status = ChangeStatus.modified ∧
    ChangeType.nullable_added ∉ c2rec.changes ∧
    ChangeType.nullable_removed ∉ c2rec.changes ∧
    ((c2rec.changes = [ChangeType.optional_added]
        ∧ c2rec.severity = ChangeSeverity.minor) ∨
     (c2rec.changes = [ChangeType.optional_removed]
        ∧ c2rec.severity = ChangeSeverity.breaking) ∨
     (c2rec.changes = [ChangeType.type_changed]
        ∧ c2rec.severity = ChangeSeverity.breaking)) :=
  claim_C2_amended "users" zodNullableStringJ zodStringJ c2rec (by decide)

/-! ## Schema-inference lemmas for C3 and C4 -/

theorem inferFromValue_head (opts : SchemaInferenceOptions) (v : JVal)
    (d : Nat) :
    nullableHead (inferFromValue opts v d) = false ∧
    unionHead (inferFromValue opts v d) = false ∧
    optionalHead (inferFromValue opts v d) = false := by
  rw [inferFromValue.eq_def]
  split
  · simp [nullableHead, unionHead, optionalHead]
  · cases v with
    | jnull => simp [nullableHead, unionHead, optionalHead]
    | jstr s =>
        dsimp only
        unfold inferStringSchema
        split_ifs <;> simp [nullableHead, unionHead, optionalHead]
    | jnum n => simp [nullableHead, unionHead, optionalHead]
    | jbool b => simp [nullableHead, unionHead, optionalHead]
    | jarr xs =>
        dsimp only
        rw [inferArraySchema]
        split
        · simp [nullableHead, unionHead, optionalHead]
        · dsimp only
          split <;> simp [nullableHead, unionHead, optionalHead]
    | jobj fs =>
        dsimp only
        rw [inferObjectSchema]
        simp [nullableHead, unionHead, optionalHead]

theorem uniqFold_spec (l : List ZSchema) :
    ∀ acc : List ZSchema × List String, acc.2 = acc.1.map getSchemaKey →
      (l.foldl uniqStep acc).2 = (l.foldl uniqStep acc).1.map getSchemaKey ∧
      (acc.2.Nodup → (l.foldl uniqStep acc).2.Nodup) ∧
      (∀ x ∈ (l.foldl uniqStep acc).1, x ∈ acc.1 ∨ x ∈ l) ∧
      (acc.1 ≠ [] → (l.foldl uniqStep acc).1 ≠ []) := by
  induction l with
  | nil =>
      intro acc h
      exact ⟨h, fun hn => hn, fun x hx => Or.inl hx, fun hne => hne⟩
  | cons s l' ih =>
      intro acc h
      rw [List.foldl_cons]
      by_cases hc : acc.2.contains (getSchemaKey s) = true
      · have hstep : uniqStep acc s = acc := by rw [uniqStep, if_pos hc]
        rw [hstep]
        obtain ⟨p1, p2, p3, p4⟩ := ih acc h
        exact ⟨p1, p2,
          fun x hx => (p3 x hx).imp id (List.mem_cons_of_mem s), p4⟩
      · have hstep : uniqStep acc s
            = (acc.1 ++ [s], acc.2 ++ [getSchemaKey s]) := by
          rw [uniqStep, if_neg hc]
        rw [hstep]
        have h' : (acc.1 ++ [s], acc.2 ++ [getSchemaKey s]).2
            = (acc.1 ++ [s], acc.2 ++ [getSchemaKey s]).1.map getSchemaKey := by
          simp [h]
        obtain ⟨p1, p2, p3, p4⟩ := ih _ h'
        refine ⟨p1, ?_, ?_, fun _ => p4 (by simp)⟩
        · intro hn
          apply p2
          simp only []
          rw [List.nodup_append]
          refine ⟨hn, List.nodup_singleton _, ?_⟩
          intro a ha hak
          simp only [List.mem_singleton] at hak
          subst hak
          exact hc (contains_iff_mem.mpr ha)
        · intro x hx
          rcases p3 x hx with h1 | h1
          · rcases List.mem_append.mp h1 with h2 | h2
            · exact Or.inl h2
            · simp only [List.mem_singleton] at h2
              exact Or.inr (h2 ▸ List.mem_cons_self s l')
          · exact Or.inr (List.mem_cons_of_mem s h1)

theorem mem_getUniqueSchemas {l : List ZSchema} {x : ZSchema}
    (h : x ∈ getUniqueSchemas l) : x ∈ l := by
  unfold getUniqueSchemas at h
  rcases (uniqFold_spec l ([], []) (by simp)).2.2.1 x h with h1 | h1
  · simp at h1
  · exact h1

theorem getUniqueSchemas_keys_nodup (l : List ZSchema) :
    ((getUniqueSchemas l).map getSchemaKey).Nodup := by
  obtain ⟨p1, p2, _, _⟩ := uniqFold_spec l ([], []) (by simp)
  unfold getUniqueSchemas
  rw [← p1]
  exact p2 (by simp)

theorem getUniqueSchemas_ne_nil {l : List ZSchema} (h : l ≠ []) :
    getUniqueSchemas l ≠ [] := by
  cases l with
  | nil => exact absurd rfl h
  | cons s l' =>
      unfold getUniqueSchemas
      rw [List.foldl_cons]
      have hstep : uniqStep ([], []) s = ([s], [getSchemaKey s]) := by
        simp [uniqStep]
      rw [hstep]
      exact (uniqFold_spec l' ([s], [getSchemaKey s]) (by simp)).2.2.2 (by simp)

theorem stripOptional_of {s : ZSchema} (h : optionalHead s = false) :
    stripOptional s = s := by
  cases s <;> simp_all [optionalHead, stripOptional]

theorem stripNullable_of {s : ZSchema} (h : nullableHead s = false) :
    stripNullable s = s := by
  cases s <;> simp_all [nullableHead, stripNullable]

theorem fbSchema0_heads (opts : SchemaInferenceOptions) (arr : List JVal)
    (key : String) :
    nullableHead (fbSchema0 opts arr key) = false ∧
    unionHead (fbSchema0 opts arr key) = false ∨
    nullableHead (fbSchema0 opts arr key) = false ∧
    optionalHead (fbSchema0 opts arr key) = false := by
  unfold fbSchema0
  cases hu : getUniqueSchemas ((arr.filterMap (fun item => propGet item key)).map
      (fun v => inferFromValue opts v 0)) with
  | nil => right; simp [nullableHead, optionalHead]
  | cons u rest =>
      cases rest with
      | nil =>
          have hmem : u ∈ getUniqueSchemas
              ((arr.filterMap (fun item => propGet item key)).map
                (fun v => inferFromValue opts v 0)) := by
            rw [hu]; simp
          have h2 := mem_getUniqueSchemas hmem
          rcases List.mem_map.mp h2 with ⟨v, _, hv⟩
          obtain ⟨h3, _, h5⟩ := inferFromValue_head opts v 0
          right
          rw [← hv]
          exact ⟨h3, h5⟩
      | cons u2 rest2 => right; simp [nullableHead, optionalHead]

theorem fbSchema0_not_nullable (opts : SchemaInferenceOptions)
    (arr : List JVal) (key : String) :
    nullableHead (fbSchema0 opts arr key) = false := by
  rcases fbSchema0_heads opts arr key with ⟨h, _⟩ | ⟨h, _⟩ <;> exact h

theorem fbSchema0_not_optional (opts : SchemaInferenceOptions)
    (arr : List JVal) (key : String) :
    optionalHead (fbSchema0 opts arr key) = false := by
  unfold fbSchema0
  cases hu : getUniqueSchemas ((arr.filterMap (fun item => propGet item key)).map
      (fun v => inferFromValue opts v 0)) with
  | nil => simp [optionalHead]
  | cons u rest =>
      cases rest with
      | nil =>
          have hmem : u ∈ getUniqueSchemas
              ((arr.filterMap (fun item => propGet item key)).map
                (fun v => inferFromValue opts v 0)) := by
            rw [hu]; simp
          have h2 := mem_getUniqueSchemas hmem
          rcases List.mem_map.mp h2 with ⟨v, _, hv⟩
          rw [← hv]
          exact (inferFromValue_head opts v 0).2.2
      | cons u2 rest2 => simp [optionalHead]

theorem stripOptional_fieldBuild (opts : SchemaInferenceOptions)
    (arr : List JVal) (key : String) :
    stripOptional (fieldBuild opts arr key) =
      (if opts.mode = .strict ∧ nullCountOf arr key > 0 then
        ZSchema.znullable (fbSchema0 opts arr key)
      else if opts.mode = .auto ∧ 20 * nullCountOf arr key > arr.length then
        ZSchema.znullable (fbSchema0 opts arr key)
      else fbSchema0 opts arr key) := by
  unfold fieldBuild
  dsimp only
  split
  · rfl
  · split
    · rfl
    · split
      · rfl
      · exact stripOptional_of (fbSchema0_not_optional opts arr key)

theorem stripBoth_fieldBuild (opts : SchemaInferenceOptions)
    (arr : List JVal) (key : String) :
    stripNullable (stripOptional (fieldBuild opts arr key))
      = fbSchema0 opts arr key := by
  rw [stripOptional_fieldBuild]
  split
  · rfl
  · split
    · rfl
    · exact stripNullable_of (fbSchema0_not_nullable opts arr key)

theorem inferredFieldSchema_some {opts : SchemaInferenceOptions}
    {arr : List JVal} {key : String} {s : ZSchema}
    (h : inferredFieldSchema opts arr key = some s) :
    arr.filterMap (fun item => propGet item key) ≠ [] ∧
    s = fieldBuild opts arr key := by
  unfold inferredFieldSchema at h
  rw [inferFromArray] at h
  by_cases harr : arr = []
  · rw [if_pos harr] at h
    simp at h
  · rw [if_neg harr] at h
    have hmem := lookup_mem h
    rcases List.mem_filterMap.mp hmem with ⟨k', _, hf⟩
    dsimp only at hf
    split at hf
    · simp at hf
    · next hne =>
        simp only [Option.some.injEq, Prod.mk.injEq] at hf
        obtain ⟨hk, hs⟩ := hf
        subst hk
        refine ⟨?_, hs.symm⟩
        intro hempty
        exact hne (by rw [hempty]; rfl)

/-! ## Claims C3 and C4 -/

/-- C3: for a field of a sampled object list with some present value — in
`strict` mode the field schema is `Nullable`-wrapped whenever at least one
null occurs; in `loose` mode it is never wrapped by null presence; in
`auto` mode it is wrapped exactly when the null ratio strictly exceeds
5 percent (`20 * nullCount > n`); concretely 1 null out of 20 stays
non-nullable and 2 nulls out of 20 become `Nullable`. -/
theorem claim_C3 :
    (∀ (opts : SchemaInferenceOptions) (arr : List JVal) (key : String)
        (s : ZSchema), opts.mode = .strict →
      inferredFieldSchema opts arr key = some s →
      1 ≤ nullCountOf arr key →
      nullableHead (stripOptional s) = true) ∧
    (∀ (opts : SchemaInferenceOptions) (arr : List JVal) (key : String)
        (s : ZSchema), opts.mode = .loose →
      inferredFieldSchema opts arr key = some s →
      nullableHead (stripOptional s) = false) ∧
    (∀ (opts : SchemaInferenceOptions) (arr : List JVal) (key : String)
        (s : ZSchema), opts.mode = .auto →
      inferredFieldSchema opts arr key = some s →
      (nullableHead (stripOptional s) = true ↔
        20 * nullCountOf arr key > arr.length)) ∧
    inferredFieldSchema (exOpts .auto) exArr20one "f"
      = some (.zunion [.znumber, .znull]) ∧
    inferredFieldSchema (exOpts .auto) exArr20two "f"
      = some (.znullable (.zunion [.znumber, .znull])) := by
  refine ⟨?_, ?_, ?_, ?_, ?_⟩
  · intro opts arr key s hmode h hnull
    obtain ⟨_, hs⟩ := inferredFieldSchema_some h
    rw [hs, stripOptional_fieldBuild, if_pos ⟨hmode, by omega⟩]
    rfl
  · intro opts arr key s hmode h
    obtain ⟨_, hs⟩ := inferredFieldSchema_some h
    rw [hs, stripOptional_fieldBuild, if_neg (by simp [hmode]),
      if_neg (by simp [hmode])]
    exact fbSchema0_not_nullable opts arr key
  · intro opts arr key s hmode h
    obtain ⟨_, hs⟩ := inferredFieldSchema_some h
    rw [hs, stripOptional_fieldBuild, if_neg (by simp [hmode])]
    by_cases hcond : 20 * nullCountOf arr key > arr.length
    · rw [if_pos ⟨hmode, hcond⟩]
      simp [nullableHead, hcond]
    · rw [if_neg (by simp [hcond])]
      simp [fbSchema0_not_nullable opts arr key, hcond]
  · simp [inferredFieldSchema, inferFromArray, fieldBuild, fbSchema0,
      nullCountOf, exArr20one, exOpts, jsDedup, keysOf, propGet, jGetOpt,
      getUniqueSchemas, uniqStep, getSchemaKey, List.replicate]
    simp [inferFromValue, inferStringSchema]
  · simp [inferredFieldSchema, inferFromArray, fieldBuild, fbSchema0,
      nullCountOf, exArr20two, exOpts, jsDedup, keysOf, propGet, jGetOpt,
      getUniqueSchemas, uniqStep, getSchemaKey, List.replicate]
    simp [inferFromValue, inferStringSchema]

theorem exArrNull_strict_eval :
    inferredFieldSchema (exOpts .strict) exArrNull "a"
      = some (.znullable (.zunion [.znumber, .znull])) := by
  simp [inferredFieldSchema, inferFromArray, fieldBuild, fbSchema0,
    nullCountOf, exArrNull, exOpts, jsDedup, keysOf, propGet, jGetOpt,
    getUniqueSchemas, uniqStep, getSchemaKey]
  simp [inferFromValue, inferStringSchema]

theorem exArrNull_loose_eval :
    inferredFieldSchema (exOpts .loose) exArrNull "a"
      = some (.zunion [.znumber, .znull]) := by
  simp [inferredFieldSchema, inferFromArray, fieldBuild, fbSchema0,
    nullCountOf, exArrNull, exOpts, jsDedup, keysOf, propGet, jGetOpt,
    getUniqueSchemas, uniqStep, getSchemaKey]
  simp [inferFromValue, inferStringSchema]

theorem claim_C3_witness :
    ((exOpts .strict).mode = .strict ∧
      inferredFieldSchema (exOpts .strict) exArrNull "a"
        = some (.znullable (.zunion [.znumber, .znull])) ∧
      1 ≤ nullCountOf exArrNull "a" ∧
      nullableHead (stripOptional (.znullable (.zunion [.znumber, .znull])))
        = true) ∧
    ((exOpts .loose).mode = .loose ∧
      inferredFieldSchema (exOpts .loose) exArrNull "a"
        = some (.zunion [.znumber, .znull]) ∧
      nullableHead (stripOptional (.zunion [.znumber, .znull])) = false) :=
  ⟨⟨rfl, exArrNull_strict_eval, by decide,
    claim_C3.1 (exOpts .strict) exArrNull "a" _ rfl exArrNull_strict_eval
      (by decide)⟩,
   ⟨rfl, exArrNull_loose_eval,
    claim_C3.2.1 (exOpts .loose) exArrNull "a" _ rfl exArrNull_loose_eval⟩⟩

/-- C4 counterexample: null occurrences do contribute to the union
members — for samples `[{a: 1}, {a: null}]` in `loose` mode the inferred
field type is `Union[number, null]`, not the `number` the claim (union of
present non-null values only, single distinct type ⇒ no union)
predicts. -/
theorem claim_C4_counterexample :
    inferredFieldSchema (exOpts .loose) exArrNull "a"
      = some (.zunion [.znumber, .znull]) ∧
    (ZSchema.zunion [.znumber, .znull] ≠ ZSchema.znumber) ∧
    ZSchema.znull ∈ [ZSchema.znumber, ZSchema.znull] :=
  ⟨exArrNull_loose_eval, nofun, by simp⟩

/-- C4 amended: a field's inferred type is built from the inferred types
of all present (non-`undefined`) values — nulls included, a null sample
contributing a `null` member — deduplicated by the top-level schema kind:
whenever the (unwrapped) field type is a union, its members are pairwise
distinct (their `getSchemaKey`s differ), there are at least two of them,
and each member is the inferred type of one of the present values; if
exactly one distinct type remains, no union is produced. -/
theorem claim_C4_amended (opts : SchemaInferenceOptions) (arr : List JVal)
    (key : String) (s : ZSchema)
    (h : inferredFieldSchema opts arr key = some s) :
    (∀ ms, stripNullable (stripOptional s) = ZSchema.zunion ms →
      ms.Pairwise (fun a b => getSchemaKey a ≠ getSchemaKey b) ∧
      ms.Pairwise (fun a b => a ≠ b) ∧
      2 ≤ ms.length ∧
      ∀ m ∈ ms, m ∈ (arr.filterMap (fun item => propGet item key)).map
        (fun v => inferFromValue opts v 0)) ∧
    ((getUniqueSchemas ((arr.filterMap (fun item => propGet item key)).map
        (fun v => inferFromValue opts v 0))).length = 1 →
      ∀ ms, stripNullable (stripOptional s) ≠ ZSchema.zunion ms) := by
  obtain ⟨hvals, hs⟩ := inferredFieldSchema_some h
  have hcore : stripNullable (stripOptional s) = fbSchema0 opts arr key := by
    rw [hs]
    exact stripBoth_fieldBuild opts arr key
  have hne : ((arr.filterMap (fun item => propGet item key)).map
      (fun v => inferFromValue opts v 0)) ≠ [] := by
    simpa using hvals
  constructor
  · intro ms hms
    rw [hcore] at hms
    unfold fbSchema0 at hms
    revert hms
    cases hu : getUniqueSchemas ((arr.filterMap (fun item => propGet item key)).map
        (fun v => inferFromValue opts v 0)) with
    | nil => exact absurd hu (getUniqueSchemas_ne_nil hne)
    | cons u rest =>
        cases rest with
        | nil =>
            intro hms
            exfalso
            have hmem : u ∈ getUniqueSchemas
                ((arr.filterMap (fun item => propGet item key)).map
                  (fun v => inferFromValue opts v 0)) := by
              rw [hu]; simp
            rcases List.mem_map.mp (mem_getUniqueSchemas hmem) with ⟨v, _, hv⟩
            have h4 := (inferFromValue_head opts v 0).2.1
            rw [hv] at h4
            simp only at hms
            rw [hms] at h4
            simp [unionHead] at h4
        | cons u2 rest2 =>
            intro hms
            simp only at hms
            have hlist : u :: u2 :: rest2 = ms :=
              ZSchema.zunion.inj hms
            subst hlist
            have hnodup := getUniqueSchemas_keys_nodup
              ((arr.filterMap (fun item => propGet item key)).map
                (fun v => inferFromValue opts v 0))
            rw [hu] at hnodup
            have hpw : (u :: u2 :: rest2).Pairwise
                (fun a b => getSchemaKey a ≠ getSchemaKey b) := by
              rw [List.Nodup, List.pairwise_map] at hnodup
              exact hnodup
            refine ⟨hpw, hpw.imp ?_, by simp, ?_⟩
            · intro a b hab heq
              exact hab (heq ▸ rfl)
            · intro m hm
              have : m ∈ getUniqueSchemas
                  ((arr.filterMap (fun item => propGet item key)).map
                    (fun v => inferFromValue opts v 0)) := by
                rw [hu]; exact hm
              exact mem_getUniqueSchemas this
  · intro hlen ms
    rw [hcore]
    unfold fbSchema0
    cases hu : getUniqueSchemas ((arr.filterMap (fun item => propGet item key)).map
        (fun v => inferFromValue opts v 0)) with
    | nil => exact absurd hu (getUniqueSchemas_ne_nil hne)
    | cons u rest =>
        cases rest with
        | nil =>
            have hmem : u ∈ getUniqueSchemas
                ((arr.filterMap (fun item => propGet item key)).map
                  (fun v => inferFromValue opts v 0)) := by
              rw [hu]; simp
            rcases List.mem_map.mp (mem_getUniqueSchemas hmem) with ⟨v, _, hv⟩
            have h4 := (inferFromValue_head opts v 0).2.1
            rw [hv] at h4
            simp only
            intro hms
            rw [hms] at h4
            simp [unionHead] at h4
        | cons u2 rest2 =>
            exfalso
            rw [hu] at hlen
            simp at hlen

theorem claim_C4_amended_witness :
    inferredFieldSchema (exOpts .loose) exArrNull "a"
      = some (.zunion [.znumber, .znull]) ∧
    (∀ ms, stripNullable (stripOptional (ZSchema.zunion [.znumber, .znull]))
        = ZSchema.zunion ms →
      ms.Pairwise (fun a b => getSchemaKey a ≠ getSchemaKey b) ∧
      ms.Pairwise (fun a b => a ≠ b) ∧
      2 ≤ ms.length ∧
      ∀ m ∈ ms, m ∈ (exArrNull.filterMap
          (fun item => propGet item "a")).map
        (fun v => inferFromValue (exOpts .loose) v 0)) :=
  ⟨exArrNull_loose_eval,
   (claim_C4_amended (exOpts .loose) exArrNull "a" _ exArrNull_loose_eval).1⟩

end ESG
